import Mathlib

/-!
# go-srcutil: a shallow embedding of `package.go`

The development models the `Package` facade of `srcutil` (file `package.go`):
the test-name filter `isTest`, the method resolver (`MethodSet`, `Methods`,
`Functions`), the toolchain builder `toToolchain` with its accessors, the
one-shot initialisation `init`, the documentation view `Docs` and the file
lists `Files`.

Conventions of the embedding:

* a Go `string` is the list of its bytes (`GoString`), compared bytewise;
* a Go pointer that may be `nil` is an `Option`;
* a Go `map[string]T` is a list of entries with pairwise distinct keys (`GoMap`);
* the external engines (`go/parser`, `go/doc`, `go/types`) are parameters,
  collected in `Engines`; the state they read (the file system) is threaded
  explicitly as a world value.
-/

namespace Srcutil

/-! ## Strings and runes -/

/-- A Go string: its sequence of bytes, each below 256. -/
abbrev GoString := List Nat

/-- The bytes (UTF-8) of a string literal. -/
def str (s : String) : GoString :=
  s.data.flatMap fun c => (String.utf8EncodeChar c).map UInt8.toNat

/-- The constant `utf8.RuneError`. -/
def RuneError : Nat := 0xFFFD

/-- The table `first` of `unicode/utf8`: information about the first byte of
a UTF-8 sequence (`as = 0xF0`, `xx = 0xF1`, `s1 = 0x02`, ..., `s7 = 0x44`). -/
def first (b : Nat) : Nat :=
  if b < 0x80 then 0xF0
  else if b < 0xC2 then 0xF1
  else if b < 0xE0 then 0x02
  else if b = 0xE0 then 0x13
  else if b < 0xED then 0x03
  else if b = 0xED then 0x23
  else if b < 0xF0 then 0x03
  else if b = 0xF0 then 0x34
  else if b < 0xF4 then 0x04
  else if b = 0xF4 then 0x44
  else 0xF1

/-- The table `acceptRanges` of `unicode/utf8`: bounds `(lo, hi)` of the
second byte. -/
def acceptRanges (i : Nat) : Nat × Nat :=
  match i with
  | 0 => (0x80, 0xBF)
  | 1 => (0xA0, 0xBF)
  | 2 => (0x80, 0x9F)
  | 3 => (0x90, 0xBF)
  | 4 => (0x80, 0x8F)
  | _ => (0, 0)

/-- The function `utf8.DecodeRuneInString`: the first rune of `s` and its
width in bytes; `(RuneError, 0)` for the empty string and `(RuneError, 1)`
for an invalid encoding. -/
def DecodeRuneInString (s : GoString) : Nat × Nat :=
  let n := s.length
  if n < 1 then (RuneError, 0) else
  let s0 := s.getD 0 0
  let x := first s0
  if x ≥ 0xF0 then
    (if x % 2 = 1 then RuneError else s0, 1)
  else
    let sz := x &&& 7
    let accept := acceptRanges (x >>> 4)
    if n < sz then (RuneError, 1) else
    let s1 := s.getD 1 0
    if s1 < accept.1 ∨ accept.2 < s1 then (RuneError, 1) else
    if sz ≤ 2 then (((s0 &&& 0x1F) <<< 6) ||| (s1 &&& 0x3F), 2) else
    let s2 := s.getD 2 0
    if s2 < 0x80 ∨ 0xBF < s2 then (RuneError, 1) else
    if sz ≤ 3 then
      (((s0 &&& 0x0F) <<< 12) ||| ((s1 &&& 0x3F) <<< 6) ||| (s2 &&& 0x3F), 3) else
    let s3 := s.getD 3 0
    if s3 < 0x80 ∨ 0xBF < s3 then (RuneError, 1) else
    (((s0 &&& 0x07) <<< 18) ||| ((s1 &&& 0x3F) <<< 12) ||| ((s2 &&& 0x3F) <<< 6)
      ||| (s3 &&& 0x3F), 4)

/-- The letter tables of package `unicode` outside ASCII, which the
repository takes from the standard library: `lower r` and `upper r` tell
whether the rune `r ≥ 0x80` is a lower-case, respectively an upper-case,
letter. -/
structure UnicodeTables where
  lower : Nat → Bool
  upper : Nat → Bool

/-- The function `unicode.IsLower`: on ASCII the letters `a` to `z`, beyond
ASCII the table. -/
def IsLower (U : UnicodeTables) (r : Nat) : Bool :=
  if r < 0x80 then decide (0x61 ≤ r ∧ r ≤ 0x7A) else U.lower r

/-- The function `unicode.IsUpper`: on ASCII the letters `A` to `Z`, beyond
ASCII the table. -/
def IsUpper (U : UnicodeTables) (r : Nat) : Bool :=
  if r < 0x80 then decide (0x41 ≤ r ∧ r ≤ 0x5A) else U.upper r

/-- The function `strings.HasPrefix`:
`len(s) >= len(prefix) && s[:len(prefix)] == prefix`. -/
def HasPrefix (s pre : GoString) : Bool :=
  decide (s.length ≥ pre.length) && decide (s.take pre.length = pre)

/-- The function `isTest` of `package.go`. -/
def isTest (U : UnicodeTables) (name pre : GoString) : Bool :=
  if !HasPrefix name pre then false
  else if name.length = pre.length then true
  else
    let rune := (DecodeRuneInString (name.drop pre.length)).1
    !IsLower U rune

/-! ## Maps and sorting -/

/-- A Go `map[string]β`: entries with pairwise distinct keys. The order of
`entries` stands for the (unspecified) iteration order; a `nil` map is the
empty map. -/
structure GoMap (β : Type) where
  entries : List (GoString × β)
  nodup : (entries.map Prod.fst).Nodup

namespace GoMap

variable {β : Type}

/-- The map `make(map[string]β)`. -/
def empty : GoMap β := ⟨[], List.nodup_nil⟩

/-- The keys in iteration order, as seen by `for k := range m`. -/
def keys (m : GoMap β) : List GoString := m.entries.map Prod.fst

/-- The builtin `len(m)`. -/
def len (m : GoMap β) : Nat := m.entries.length

/-- The two-valued index expression `v, ok := m[k]`. -/
def get? (m : GoMap β) (k : GoString) : Option β :=
  (m.entries.find? fun e => decide (e.1 = k)).map Prod.snd

theorem set_nodup (l : List (GoString × β)) (h : (l.map Prod.fst).Nodup)
    (k : GoString) (v : β) :
    (((l.filter fun e => decide (e.1 ≠ k)) ++ [(k, v)]).map Prod.fst).Nodup := by
  rw [List.map_append, List.nodup_append]
  refine ⟨?_, by simp, ?_⟩
  · exact h.sublist ((List.filter_sublist l).map Prod.fst)
  · intro a ha hk
    simp only [List.map_cons, List.map_nil, List.mem_singleton] at hk
    subst hk
    rcases List.mem_map.1 ha with ⟨e, he, rfl⟩
    simpa using (List.mem_filter.1 he).2

/-- The assignment `m[k] = v`: an existing entry for `k` is replaced. -/
def set (m : GoMap β) (k : GoString) (v : β) : GoMap β :=
  ⟨(m.entries.filter fun e => decide (e.1 ≠ k)) ++ [(k, v)], set_nodup m.entries m.nodup k v⟩

end GoMap

/-- The comparison `a < b` of Go strings: bytewise lexicographic. -/
def strLess : GoString → GoString → Bool
  | [], [] => false
  | [], _ :: _ => true
  | _ :: _, [] => false
  | a :: as, b :: bs => if a < b then true else if b < a then false else strLess as bs

/-- The comparison `a <= b` of Go strings. -/
def strLe (a b : GoString) : Prop := strLess b a = false

instance strLe.decidable : DecidableRel strLe := fun a b =>
  inferInstanceAs (Decidable (strLess b a = false))

/-- The function `sort.Strings`: the strings in increasing order. -/
def sortStrings (l : List GoString) : List GoString := l.insertionSort strLe

/-! ## The type-checked scope (`go/types`) -/

/-- A `types.Type`, as far as the method resolver looks at it: a type known
by a handle, or the pointer type built by `types.NewPointer`. -/
inductive GoType where
  | basic (id : Nat)
  | pointer (elem : GoType)
  deriving DecidableEq, Repr

/-- The dynamic type of a `types.Object`. -/
inductive ObjKind where
  | Func
  | Var
  | TypeName
  | Const
  deriving DecidableEq, Repr

/-- A `types.Object`: its dynamic type, `Name()` and `Type()`. -/
structure Object where
  kind : ObjKind
  name : GoString
  typ : GoType
  deriving DecidableEq, Repr

/-- The function `ast.IsExported`: the first rune of the name is an
upper-case letter. -/
def IsExported (U : UnicodeTables) (name : GoString) : Bool :=
  IsUpper U (DecodeRuneInString name).1

/-- The method `Exported` of `types.Object`: `ast.IsExported(obj.Name())`. -/
def Object.Exported (U : UnicodeTables) (obj : Object) : Bool :=
  IsExported U obj.name

/-- A `types.Scope`: the declared objects, each stored under its own name
(`Scope.Insert` keys an object by `obj.Name()`), so the names are distinct. -/
structure Scope where
  objs : List Object
  nodup : (objs.map Object.name).Nodup

/-- The method `Scope.Lookup`: the object declared under `name`, or `nil`. -/
def Scope.Lookup (s : Scope) (name : GoString) : Option Object :=
  s.objs.find? fun o => decide (o.name = name)

/-- The method `Scope.Names`: the declared names, sorted. -/
def Scope.Names (s : Scope) : List GoString :=
  sortStrings (s.objs.map Object.name)

/-- A `types.Package`: `Name()` and `Scope()`. -/
structure TypesPackage where
  name : GoString
  scope : Scope

/-- A `types.Selection` of a method set; `obj` is `Obj()`. -/
structure Selection where
  obj : Object
  deriving DecidableEq, Repr

/-! ## Functions and method sets -/

/-- The struct `Function`: a `*types.Func` with its signature. -/
structure Function where
  Func : Object
  Signature : GoType
  deriving DecidableEq, Repr

/-- The promoted method `Name()` of a `Function`. -/
def Function.Name (f : Function) : GoString := f.Func.name

/-- The function `NewFunction`. -/
def NewFunction (typeFunc : Object) : Function := ⟨typeFunc, typeFunc.typ⟩

/-- The struct `MethodSet`. -/
structure MethodSet where
  Name : GoString
  Obj : Option Object
  Methods : GoMap Function

/-- The zero value `MethodSet{}`. -/
def MethodSet.zero : MethodSet := ⟨[], none, GoMap.empty⟩

/-- The function `NewMethodSet`. -/
def NewMethodSet (name : GoString) (obj : Object) : MethodSet :=
  ⟨name, some obj, GoMap.empty⟩

/-- The method `MethodSet.Names`. -/
def MethodSet.Names (m : MethodSet) : List GoString :=
  sortStrings (m.Methods.keys.foldl (fun names k => names ++ [k]) [])

/-- The method `MethodSet.Len`. -/
def MethodSet.Len (m : MethodSet) : Nat := m.Methods.len

/-! ## The artifacts of the toolchain -/

/-- A `token.FileSet`: the files registered by the parser. -/
structure FileSet where
  files : List GoString := []
  deriving DecidableEq, Repr

/-- The function `token.NewFileSet`. -/
def NewFileSet : FileSet := {}

/-- An `ast.File`, known by a handle. -/
structure AstFile where
  id : Nat
  deriving DecidableEq, Repr

/-- An `ast.Package`: its name and its files by file name. -/
structure AstPackage where
  Name : GoString
  Files : GoMap AstFile

/-- A `doc.Value`: a block of constants or variables declared together. -/
structure DocValue where
  Doc : GoString := []
  Names : List GoString := []
  deriving DecidableEq, Repr

/-- A `doc.Func`. -/
structure DocFunc where
  Doc : GoString := []
  Name : GoString := []
  Recv : GoString := []
  deriving DecidableEq, Repr

/-- A `doc.Type`: `Funcs` are the functions associated with the type,
`Methods` the methods declared on it. -/
structure DocType where
  Doc : GoString := []
  Name : GoString := []
  Consts : List DocValue := []
  Vars : List DocValue := []
  Funcs : List DocFunc := []
  Methods : List DocFunc := []
  deriving DecidableEq, Repr

/-- A `doc.Note`. -/
structure DocNote where
  UID : GoString := []
  Body : GoString := []
  deriving DecidableEq, Repr

/-- A `doc.Package`. -/
structure DocPackage where
  Doc : GoString := []
  Name : GoString := []
  Filenames : List GoString := []
  Notes : GoMap (List DocNote) := GoMap.empty
  Consts : List DocValue := []
  Types : List DocType := []
  Vars : List DocValue := []
  Funcs : List DocFunc := []

/-- A `types.Info`: the facts recorded by the type checker. -/
structure TypesInfo where
  facts : List Nat := []
  deriving DecidableEq, Repr

/-- An error value of `go/parser`. -/
structure ParseError where
  id : Nat
  deriving DecidableEq, Repr

/-- An error value of `go/types`. -/
structure CheckError where
  id : Nat
  deriving DecidableEq, Repr

/-- A Go `error` as met in `package.go`: an error of the parser or of the
type checker, passed on as it is, or a value made by `fmt.Errorf`, known by
its message. -/
inductive Error where
  | parse (e : ParseError)
  | check (e : CheckError)
  | errorf (msg : GoString)
  deriving DecidableEq, Repr

/-- The external engines, over a world `W` (the file system they read).
`ParseDir` and `Check` return the world they leave; `ParseDir` also returns
the file set it has filled, `Check` the facts for the `types.Info`.
On success the engines give allocated, hence non-`nil`, artifacts: the map
of `ParseDir` holds packages, `docNew` (`doc.New`) and `Check` return
packages. `docSynopsis`, `filepathBase` and `filepathJoin` are `doc.Synopsis`,
`filepath.Base` and `filepath.Join`. `nilPkgScope` is what
`(*types.Package).Scope` gives on a `nil` receiver: `none` when it faults. -/
structure Engines (W : Type) where
  tables : UnicodeTables
  ParseDir : W → FileSet → GoString → Except ParseError (GoMap AstPackage) × FileSet × W
  docNew : AstPackage → GoString → DocPackage
  Check : W → GoString → FileSet → List AstFile → Except CheckError (TypesPackage × TypesInfo) × W
  NewMethodSet : GoType → List Selection
  docSynopsis : GoString → GoString
  filepathBase : GoString → GoString
  filepathJoin : GoString → GoString → GoString
  nilPkgScope : Option Scope

/-- The struct `toolchain`; every field is a pointer. -/
structure Toolchain where
  fileSet : Option FileSet := none
  astPkg : Option AstPackage := none
  docPkg : Option DocPackage := none
  typesPkg : Option TypesPackage := none
  typesInfo : Option TypesInfo := none

/-- The fields of `build.Package` that `package.go` reads. -/
structure BuildPackage where
  Dir : GoString := []
  Name : GoString := []
  ImportPath : GoString := []
  GoFiles : List GoString := []
  CgoFiles : List GoString := []
  CXXFiles : List GoString := []
  MFiles : List GoString := []
  SFiles : List GoString := []
  SwigFiles : List GoString := []
  TestGoFiles : List GoString := []
  XTestGoFiles : List GoString := []
  deriving DecidableEq, Repr

/-- The struct `Package`: the embedded `build.Package`, the `sync.Once`
(`once` tells whether it has fired) and the cached toolchain pointer. -/
structure Package extends BuildPackage where
  once : Bool := false
  tc : Option Toolchain := none

/-- Assignments to the fields of the embedded `build.Package` (such as
`pkg.Package.Dir = ""`): the once and the cached toolchain stay. -/
def Package.withBuild (p : Package) (b : BuildPackage) : Package :=
  { toBuildPackage := b, once := p.once, tc := p.tc }

/-- The stages of `toToolchain`, in the order of the code. -/
inductive Stage where
  | parse
  | docParse
  | lookup
  | typeCheck
  deriving DecidableEq, Repr

/-- The outcome of a call on a `Package`: the returned value (`none` when
the call faults on a `nil` dereference), the package and the world it
leaves, and the stages of `toToolchain` that ran during the call. -/
structure Res (W α : Type) where
  val : Option α
  pkg : Package
  world : W
  trace : List Stage

/-- The method `Package.astFiles`: the files of the package, in map order. -/
def astFiles (astPkg : AstPackage) : List AstFile :=
  astPkg.Files.keys.foldl
    (fun out key => match astPkg.Files.get? key with
      | some f => out ++ [f]
      | none => out) []

/-- The error of `toToolchain` for a package name missing in the directory:
`fmt.Errorf("unable to find pkg \"%s\" in the \"%s\" directory", p.Name, p.Dir)`. -/
def pkgNotFound (name dir : GoString) : Error :=
  Error.errorf (str "unable to find pkg \"" ++ name ++ str "\" in the \"" ++ dir
    ++ str "\" directory")

/-- The method `Package.toToolchain`. Returns the pair `(tc, err)` of the
code, the world left by the engines, and the stages that ran. The
`types.Info` passed in, when it is not `nil`, is the one `Check` fills and
the bundle keeps. -/
def toToolchain {W : Type} (E : Engines W) (p : BuildPackage) (typesInfo : Option TypesInfo)
    (w : W) : (Toolchain × Option Error) × W × List Stage :=
  let tc : Toolchain := {}
  let fileSet := NewFileSet
  match E.ParseDir w fileSet p.Dir with
  | (.error err, _, w1) => ((tc, some (Error.parse err)), w1, [Stage.parse])
  | (.ok pkgs, fileSet, w1) =>
    let docFileSet := NewFileSet
    match E.ParseDir w1 docFileSet p.Dir with
    | (.error err, _, w2) =>
      ((tc, some (Error.parse err)), w2, [Stage.parse, Stage.docParse])
    | (.ok docPkgs, _, w2) =>
      match pkgs.get? p.Name, docPkgs.get? p.Name with
      | some astPkg, some docAstPkg =>
        let docPkg := E.docNew docAstPkg p.Dir
        let astFiles := astFiles astPkg
        match E.Check w2 p.Name fileSet astFiles with
        | (.error err, w3) =>
          ((tc, some (Error.check err)), w3,
            [Stage.parse, Stage.docParse, Stage.lookup, Stage.typeCheck])
        | (.ok (typesPkg, facts), w3) =>
          (({ fileSet := some fileSet, astPkg := some astPkg, docPkg := some docPkg,
              typesPkg := some typesPkg, typesInfo := typesInfo.map fun _ => facts }, none),
            w3, [Stage.parse, Stage.docParse, Stage.lookup, Stage.typeCheck])
      | _, _ =>
        ((tc, some (pkgNotFound p.Name p.Dir)), w2,
          [Stage.parse, Stage.docParse, Stage.lookup])

/-- The method `Package.typesInfo`: a `types.Info` with all maps made and empty. -/
def typesInfo : TypesInfo := {}

/-- The method `Package.ToAst`. -/
def ToAst {W : Type} (E : Engines W) (p : Package) (w : W) :
    (Option FileSet × Option AstPackage × Option Error) × W :=
  match toToolchain E p.toBuildPackage none w with
  | ((_, some err), w1, _) => ((none, none, some err), w1)
  | ((tc, none), w1, _) => ((tc.fileSet, tc.astPkg, none), w1)

/-- The method `Package.ToDoc`. -/
def ToDoc {W : Type} (E : Engines W) (p : Package) (w : W) :
    (Option DocPackage × Option Error) × W :=
  match toToolchain E p.toBuildPackage none w with
  | ((_, some err), w1, _) => ((none, some err), w1)
  | ((tc, none), w1, _) => ((tc.docPkg, none), w1)

/-- The method `Package.ToTypes`. -/
def ToTypes {W : Type} (E : Engines W) (p : Package) (w : W) :
    (Option TypesPackage × Option Error) × W :=
  match toToolchain E p.toBuildPackage none w with
  | ((_, some err), w1, _) => ((none, some err), w1)
  | ((tc, none), w1, _) => ((tc.typesPkg, none), w1)

/-- The method `Package.ToInfo`. -/
def ToInfo {W : Type} (E : Engines W) (p : Package) (w : W) :
    (Option TypesInfo × Option TypesPackage × Option Error) × W :=
  match toToolchain E p.toBuildPackage (some typesInfo) w with
  | ((_, some err), w1, _) => ((none, none, some err), w1)
  | ((tc, none), w1, _) => ((tc.typesInfo, tc.typesPkg, none), w1)

/-- The method `Package.init`: the body runs under `p.once.Do` only if the
once has not fired; `err` is the named result, `nil` unless the body sets it. -/
def init {W : Type} (E : Engines W) (p : Package) (w : W) : Res W (Option Error) :=
  if p.once then ⟨some none, p, w, []⟩
  else
    match toToolchain E p.toBuildPackage (some typesInfo) w with
    | ((tc, err), w1, tr) => ⟨some err, { p with once := true, tc := some tc }, w1, tr⟩

/-! ## The method resolver -/

/-- The expression `p.tc.typesPkg.Scope()`: faults when `p.tc` is `nil`. -/
def scopeOf {W : Type} (E : Engines W) (tc : Option Toolchain) : Option Scope :=
  match tc with
  | none => none
  | some tc =>
    match tc.typesPkg with
    | none => E.nilPkgScope
    | some typesPkg => some typesPkg.scope

/-- The inner loop of `Package.MethodSet` over a method set `mset` of
`go/types`: every selection whose object is a `*types.Func` is stored under
the name of the function, the others are skipped. -/
def addMethods (ms : MethodSet) (mset : List Selection) : MethodSet :=
  mset.foldl
    (fun ms z =>
      match z.obj.kind with
      | ObjKind.Func => { ms with Methods := ms.Methods.set z.obj.name (NewFunction z.obj) }
      | _ => ms)
    ms

/-- The body of `Package.MethodSet` after `p.init()`, on the scope
`p.tc.typesPkg.Scope()`. -/
def methodSetIn {W : Type} (E : Engines W) (scope : Scope) (name : GoString) :
    MethodSet × Option Error :=
  match scope.Lookup name with
  | none => (MethodSet.zero, some (Error.errorf (str "named type was not found")))
  | some obj =>
    if !obj.Exported E.tables || isTest E.tables name (str "Test")
        || isTest E.tables name (str "Example") then
      (MethodSet.zero, some (Error.errorf (str "named type was not exported")))
    else
      let typ := obj.typ
      let ms := NewMethodSet name obj
      let ms := [typ, GoType.pointer typ].foldl
        (fun ms t => addMethods ms (E.NewMethodSet t)) ms
      (ms, none)

/-- The method `Package.MethodSet`. -/
def Package.MethodSet {W : Type} (E : Engines W) (p : Package) (w : W) (name : GoString) :
    Res W (Srcutil.MethodSet × Option Error) :=
  let r := init E p w
  match scopeOf E r.pkg.tc with
  | none => ⟨none, r.pkg, r.world, r.trace⟩
  | some scope => ⟨some (methodSetIn E scope name), r.pkg, r.world, r.trace⟩

/-- One round of the loop of `Package.Methods`, on the map `methods` built
so far and the state left by the rounds before; a round after a fault does
not run. -/
def methodsRound {W : Type} (E : Engines W) (acc : Res W (GoMap MethodSet))
    (name : GoString) : Res W (GoMap MethodSet) :=
  match acc.val with
  | none => acc
  | some methods =>
    let r := Package.MethodSet E acc.pkg acc.world name
    match r.val with
    | none => ⟨none, r.pkg, r.world, acc.trace ++ r.trace⟩
    | some (_, some _) => ⟨some methods, r.pkg, r.world, acc.trace ++ r.trace⟩
    | some (methodSet, none) =>
      if methodSet.Len > 0 then
        ⟨some (methods.set name methodSet), r.pkg, r.world, acc.trace ++ r.trace⟩
      else ⟨some methods, r.pkg, r.world, acc.trace ++ r.trace⟩

/-- The method `Package.Methods`. -/
def Package.Methods {W : Type} (E : Engines W) (p : Package) (w : W) :
    Res W (GoMap Srcutil.MethodSet) :=
  let r := init E p w
  match scopeOf E r.pkg.tc with
  | none => ⟨none, r.pkg, r.world, r.trace⟩
  | some scope =>
    scope.Names.foldl (methodsRound E) ⟨some GoMap.empty, r.pkg, r.world, r.trace⟩

/-- The method `Package.Functions`. -/
def Package.Functions {W : Type} (E : Engines W) (p : Package) (w : W) :
    Res W (List Function) :=
  let r := init E p w
  match scopeOf E r.pkg.tc with
  | none => ⟨none, r.pkg, r.world, r.trace⟩
  | some scope =>
    let funcs := scope.Names.foldl
      (fun acc name =>
        match acc with
        | none => none
        | some funcs =>
          match scope.Lookup name with
          | none => none
          | some obj =>
            if !obj.Exported E.tables || isTest E.tables name (str "Test")
                || isTest E.tables name (str "Example") then some funcs
            else
              match obj.kind with
              | ObjKind.Func => some (funcs ++ [NewFunction obj])
              | _ => some funcs)
      (some [])
    ⟨funcs, r.pkg, r.world, r.trace⟩

/-! ## Other calls that force the initialisation -/

/-- The method `Package.Synopsis`. -/
def Package.Synopsis {W : Type} (E : Engines W) (p : Package) (w : W) : Res W GoString :=
  let r := init E p w
  match r.pkg.tc with
  | none => ⟨none, r.pkg, r.world, r.trace⟩
  | some tc =>
    match tc.docPkg with
    | none => ⟨none, r.pkg, r.world, r.trace⟩
    | some docPkg => ⟨some (E.docSynopsis docPkg.Doc), r.pkg, r.world, r.trace⟩

/-- The method `Package.String`. -/
def Package.String {W : Type} (E : Engines W) (p : Package) (w : W) : Res W GoString :=
  let r := init E p w
  ⟨some (str "srcutil.Package\x7b" ++ r.pkg.Name ++ str "\x7d"), r.pkg, r.world, r.trace⟩

/-- The method `Package.Docs`; the returned `Docs` holds the package itself. -/
def Package.Docs {W : Type} (E : Engines W) (p : Package) (w : W) : Res W Unit :=
  let r := init E p w
  ⟨some (), r.pkg, r.world, r.trace⟩

/-- The method `Files.Names`. -/
def Files.Names {W : Type} (E : Engines W) (p : Package) (w : W) : Res W (List GoString) :=
  let r := init E p w
  match r.pkg.tc with
  | none => ⟨none, r.pkg, r.world, r.trace⟩
  | some tc =>
    match tc.docPkg with
    | none => ⟨none, r.pkg, r.world, r.trace⟩
    | some docPkg => ⟨some (docPkg.Filenames.map E.filepathBase), r.pkg, r.world, r.trace⟩

/-- The method `Files.Paths`. -/
def Files.Paths {W : Type} (E : Engines W) (p : Package) (w : W) : Res W (List GoString) :=
  let r := init E p w
  match r.pkg.tc with
  | none => ⟨none, r.pkg, r.world, r.trace⟩
  | some tc =>
    match tc.docPkg with
    | none => ⟨none, r.pkg, r.world, r.trace⟩
    | some docPkg => ⟨some docPkg.Filenames, r.pkg, r.world, r.trace⟩

/-- A bundle of a successful build: the file set, the syntax package, the
doc package and the types package are all set. -/
def Toolchain.Complete (tc : Toolchain) : Prop :=
  tc.fileSet.isSome = true ∧ tc.astPkg.isSome = true ∧ tc.docPkg.isSome = true ∧
    tc.typesPkg.isSome = true

/-- A package whose toolchain has been built with success: the once has
fired and `p.tc` points to the bundle `tc`, all of whose fields are set. -/
def Initialised (p : Package) (tc : Toolchain) : Prop :=
  p.once = true ∧ p.tc = some tc ∧ tc.fileSet.isSome = true ∧ tc.astPkg.isSome = true ∧
    tc.docPkg.isSome = true ∧ tc.typesPkg.isSome = true ∧ tc.typesInfo.isSome = true

/-- A package that is initialised once the call at hand has made its
`p.init()` in the world `w`: it was initialised before, with the bundle
`tc`, or its once has not fired and the build that `init` then runs succeeds
with the bundle `tc`. -/
def InitialisedBy {W : Type} (E : Engines W) (p : Package) (w : W) (tc : Toolchain) : Prop :=
  Initialised p tc ∨
    (p.once = false ∧ (toToolchain E p.toBuildPackage (some typesInfo) w).1 = (tc, none))

/-- The names of the function members of a method set of `go/types`. -/
def funcNames (mset : List Selection) : List GoString :=
  (mset.filter fun z => decide (z.obj.kind = ObjKind.Func)).map fun z => z.obj.name

/-- The selection `z` is a function named `k`. -/
def isFuncNamed (k : GoString) (z : Selection) : Bool :=
  decide (z.obj.kind = ObjKind.Func ∧ z.obj.name = k)

/-- The name passes the filter of `MethodSet` and `Functions`: it is
exported and test-like neither for `Test` nor for `Example`. -/
def isPublicName (U : UnicodeTables) (name : GoString) : Bool :=
  IsExported U name && !isTest U name (str "Test") && !isTest U name (str "Example")

/-- The object is kept by `Functions`: a function whose name passes the
filter. -/
def keepFunc (U : UnicodeTables) (obj : Object) : Bool :=
  decide (obj.kind = ObjKind.Func) && isPublicName U obj.name

/-- `MethodSet(name)` gives no error and a set with at least one method. -/
def hasMethods {W : Type} (E : Engines W) (scope : Scope) (name : GoString) : Bool :=
  (methodSetIn E scope name).2.isNone && decide ((methodSetIn E scope name).1.Len > 0)

/-- One round of the loop of `Methods` on the map alone, the package being
initialised: the method set of `name` is stored when `MethodSet` gives no
error and the set has a method. -/
def methodsStep {W : Type} (E : Engines W) (scope : Scope) (methods : GoMap MethodSet)
    (name : GoString) : GoMap MethodSet :=
  match methodSetIn E scope name with
  | (_, some _) => methods
  | (methodSet, none) => if methodSet.Len > 0 then methods.set name methodSet else methods

/-- The outcome of the first stage of `toToolchain`: the first parse of
the directory. -/
def firstParse {W : Type} (E : Engines W) (p : BuildPackage) (w : W) :
    Except ParseError (GoMap AstPackage) × FileSet × W :=
  E.ParseDir w NewFileSet p.Dir

/-- The outcome of the second stage, when it runs: the parse for the
documentation, in the world left by the first parse. -/
def secondParse {W : Type} (E : Engines W) (p : BuildPackage) (w : W) :
    Except ParseError (GoMap AstPackage) × FileSet × W :=
  E.ParseDir (firstParse E p w).2.2 NewFileSet p.Dir

/-- The outcome of the last stage, when it runs: the type check of the
files of `astPkg`, in the world left by the second parse. -/
def typeCheck {W : Type} (E : Engines W) (p : BuildPackage) (w : W) (astPkg : AstPackage) :
    Except CheckError (TypesPackage × TypesInfo) × W :=
  E.Check (secondParse E p w).2.2 p.Name (firstParse E p w).2.1 (astFiles astPkg)

/-- The calls that force the initialisation of a package. -/
inductive Call where
  | init
  | Synopsis
  | String
  | Docs
  | Functions
  | Methods
  | MethodSet (name : GoString)
  | FilesNames
  | FilesPaths

/-- The effect of a call on the state: the package and the world it
leaves, and the stages of `toToolchain` that ran. -/
def Call.run {W : Type} (c : Call) (E : Engines W) (p : Package) (w : W) :
    Package × W × List Stage :=
  match c with
  | Call.init => ((Srcutil.init E p w).pkg, (Srcutil.init E p w).world, (Srcutil.init E p w).trace)
  | Call.Synopsis =>
    ((Package.Synopsis E p w).pkg, (Package.Synopsis E p w).world,
      (Package.Synopsis E p w).trace)
  | Call.String =>
    ((Package.String E p w).pkg, (Package.String E p w).world, (Package.String E p w).trace)
  | Call.Docs =>
    ((Package.Docs E p w).pkg, (Package.Docs E p w).world, (Package.Docs E p w).trace)
  | Call.Functions =>
    ((Package.Functions E p w).pkg, (Package.Functions E p w).world,
      (Package.Functions E p w).trace)
  | Call.Methods =>
    ((Package.Methods E p w).pkg, (Package.Methods E p w).world,
      (Package.Methods E p w).trace)
  | Call.MethodSet name =>
    ((Package.MethodSet E p w name).pkg, (Package.MethodSet E p w name).world,
      (Package.MethodSet E p w name).trace)
  | Call.FilesNames =>
    ((Files.Names E p w).pkg, (Files.Names E p w).world, (Files.Names E p w).trace)
  | Call.FilesPaths =>
    ((Files.Paths E p w).pkg, (Files.Paths E p w).world, (Files.Paths E p w).trace)

/-! ## The documentation view and the file lists -/

/-- The loop `out := make([]β, len(s)); for i := range s { out[i] = f(s[i]) }`:
a slice of zero values of the length of `s`, filled index by index. -/
def copyEach {α β : Type} (zero : β) (f : α → β) (s : List α) : List β :=
  (List.range s.length).foldl
    (fun out i =>
      match s.get? i with
      | some x => out.set i (f x)
      | none => out)
    (List.replicate s.length zero)

/-- The expression `d.Package.tc.docPkg`, read by the methods of `Docs`;
`none` when `tc` or `docPkg` is `nil`, where reading a field faults. -/
def docPkgOf (p : Package) : Option DocPackage :=
  match p.tc with
  | none => none
  | some tc => tc.docPkg

/-- The method `Docs.indirectValues`. -/
def Docs.indirectValues (s : List DocValue) : List DocValue :=
  copyEach {} (fun v => v) s

/-- The method `Docs.Notes`. -/
def Docs.Notes (p : Package) : Option (GoMap (List DocNote)) :=
  match docPkgOf p with
  | none => none
  | some docPkg =>
    let m := docPkg.Notes
    some (m.entries.foldl (fun out e => out.set e.1 (copyEach {} (fun n => n) e.2))
      GoMap.empty)

/-- The method `Docs.Consts`. -/
def Docs.Consts (p : Package) : Option (List DocValue) :=
  match docPkgOf p with
  | none => none
  | some docPkg => some (Docs.indirectValues docPkg.Consts)

/-- The method `Docs.Types`. -/
def Docs.Types (p : Package) : Option (List DocType) :=
  match docPkgOf p with
  | none => none
  | some docPkg => some (copyEach {} (fun t => t) docPkg.Types)

/-- The method `Docs.Methods`: for every type of `d.Types()` the entry
`out[typ.Name]` is filled from `typ.Funcs`. -/
def Docs.Methods (p : Package) : Option (GoMap (List DocFunc)) :=
  match Docs.Types p with
  | none => none
  | some types =>
    some (types.foldl (fun out typ => out.set typ.Name (copyEach {} (fun f => f) typ.Funcs))
      GoMap.empty)

/-- The method `Docs.Vars`. -/
def Docs.Vars (p : Package) : Option (List DocValue) :=
  match docPkgOf p with
  | none => none
  | some docPkg => some (Docs.indirectValues docPkg.Vars)

/-- The method `Docs.Funcs`. -/
def Docs.Funcs (p : Package) : Option (List DocFunc) :=
  match docPkgOf p with
  | none => none
  | some docPkg => some (copyEach {} (fun f => f) docPkg.Funcs)

/-- The names gathered by `Files.SourcePaths`, by its three `append`s. -/
def sourceNames (p : Package) : List GoString :=
  let names : List GoString := []
  let names := names ++ (p.GoFiles ++ p.CgoFiles)
  let names := names ++ (p.CXXFiles ++ p.MFiles)
  names ++ (p.SFiles ++ p.SwigFiles)

/-- The names gathered by `Files.TestPaths`. -/
def testNames (p : Package) : List GoString :=
  let names : List GoString := []
  names ++ (p.TestGoFiles ++ p.XTestGoFiles)

/-- The method `Files.SourcePaths`; it does not call `init`. -/
def Files.SourcePaths {W : Type} (E : Engines W) (p : Package) : List GoString :=
  let names := sourceNames p
  let paths := copyEach [] (fun name => E.filepathJoin p.Dir name) names
  sortStrings paths

/-- The method `Files.TestPaths`; it does not call `init`. -/
def Files.TestPaths {W : Type} (E : Engines W) (p : Package) : List GoString :=
  let names := testNames p
  let paths := copyEach [] (fun name => E.filepathJoin p.Dir name) names
  sortStrings paths

/-! ## The libraries behind the file names

`Files.Names` and `Files.Paths` return what `doc.New` has put in
`Filenames`. Which names these are is fixed by `go/parser`, `go/doc` and
`path/filepath` (Unix): the parts of these libraries that fix them are
written out here. -/

/-- The loop of the `..` case of `filepath.Clean` after its `out.w--`, on the
bytes still written, last byte first; `c` is the byte at `out.w`:
`for out.w > dotdot && !os.IsPathSeparator(out.index(out.w)) { out.w-- }`. -/
def backtrackLoop (dotdot : Nat) : Nat → List Nat → List Nat
  | _, [] => []
  | c, d :: r => if dotdot < (d :: r).length ∧ c ≠ 47 then backtrackLoop dotdot d r else d :: r

/-- The backtracking of the `..` case of `filepath.Clean`: the last path
element written is removed, down to `dotdot` at most. -/
def backtrack (dotdot : Nat) (out : List Nat) : List Nat :=
  match out.reverse with
  | [] => []
  | c :: r => (backtrackLoop dotdot c r).reverse

/-- What the default case of `filepath.Clean` writes before a path element:
`if rooted && out.w != 1 || !rooted && out.w != 0 { out.append(Separator) }`. -/
def withSeparator (rooted : Bool) (out : List Nat) : List Nat :=
  if (rooted = true ∧ out.length ≠ 1) ∨ (rooted = false ∧ out.length ≠ 0) then out ++ [47]
  else out

/-- The main loop of `filepath.Clean` (Unix), one byte of the path at a
time. `out` is the buffer written so far and `dotdot` the index where `..`
must stop; `copying` says that the bytes of a path element are being copied
(the inner loop of the default case). -/
def cleanLoop (rooted : Bool) : List Nat → Bool → List Nat → Nat → List Nat
  | [], _, out, _ => out
  | c :: t, true, out, dotdot =>
    if c = 47 then cleanLoop rooted t false out dotdot
    else cleanLoop rooted t true (out ++ [c]) dotdot
  | c :: t, false, out, dotdot =>
    if c = 47 then cleanLoop rooted t false out dotdot
    else if c = 46 ∧ (t = [] ∨ t.head? = some 47) then cleanLoop rooted t false out dotdot
    else
      match t with
      | d :: t' =>
        if c = 46 ∧ d = 46 ∧ (t' = [] ∨ t'.head? = some 47) then
          if dotdot < out.length then cleanLoop rooted t' false (backtrack dotdot out) dotdot
          else if rooted = true then cleanLoop rooted t' false out dotdot
          else
            cleanLoop rooted t' false ((if 0 < out.length then out ++ [47] else out) ++ [46, 46])
              ((if 0 < out.length then out ++ [47] else out) ++ [46, 46]).length
        else cleanLoop rooted (d :: t') true (withSeparator rooted out ++ [c]) dotdot
      | [] => withSeparator rooted out ++ [c]

/-- The function `filepath.Clean` (Unix). -/
def Clean (path : GoString) : GoString :=
  match path with
  | [] => str "."
  | c :: t =>
    let out := if c = 47 then cleanLoop true t false [47] 1 else cleanLoop false (c :: t) false [] 0
    if out = [] then str "." else out

/-- The function `filepath.Join` for a directory and a name: the elements
from the first non-empty one on, joined by the separator and cleaned. -/
def Join (dir name : GoString) : GoString :=
  if dir ≠ [] then Clean (dir ++ 47 :: name)
  else if name ≠ [] then Clean name
  else []

/-- The function `filepath.Base` (Unix). -/
def Base (path : GoString) : GoString :=
  if path = [] then str "."
  else
    let last := ((path.reverse.dropWhile fun b => decide (b = 47)).takeWhile
      fun b => decide (b ≠ 47)).reverse
    if last = [] then str "/" else last

/-- The root is kept: in a rooted path `..` stops at index 1 and the buffer
starts with the separator. -/
def RootKept (rooted : Bool) (out : List Nat) (dotdot : Nat) : Prop :=
  rooted = true → dotdot = 1 ∧ ∃ t, out = 47 :: t

/-- The function `strings.HasSuffix`:
`len(s) >= len(suffix) && s[len(s)-len(suffix):] == suffix`. -/
def HasSuffix (s suffix : GoString) : Bool :=
  decide (s.length ≥ suffix.length) && decide (s.drop (s.length - suffix.length) = suffix)

/-- The names of the entries of a directory that `parser.ParseDir` reads:
a name of an entry holds no separator, and `ParseDir` skips the names that
do not end in `.go`. -/
def isGoEntry (name : GoString) : Bool :=
  decide (47 ∉ name) && HasSuffix name (str ".go")

/-- The files of one package as `parser.ParseDir` records them, from the
files by the name of their entry: for each entry `d` that it reads,
`filename := filepath.Join(path, d.Name())` and `pkg.Files[filename] = src`. -/
def dirFiles (path : GoString) (files : GoMap AstFile) : GoMap AstFile :=
  (files.entries.filter fun e => isGoEntry e.1).foldl
    (fun out e => out.set (Join path e.1) e.2) GoMap.empty

/-- One package of the result of `parser.ParseDir`. -/
def dirPackage (path : GoString) (pkg : AstPackage) : AstPackage :=
  ⟨pkg.Name, dirFiles path pkg.Files⟩

/-- The result of `parser.ParseDir`, from the packages of the directory with
their files by the name of their entry. -/
def dirPackages (path : GoString) (pkgs : GoMap AstPackage) : GoMap AstPackage :=
  pkgs.entries.foldl (fun out e => out.set e.1 (dirPackage path e.2)) GoMap.empty

/-- The engines with the file names of the libraries written out. `E.ParseDir`
gives the packages of the directory with their files by the name of their
entry, and `ParseDir` records each under `filepath.Join(path, name)`;
`doc.New` lists the file names of the package it is given in the order of
`sort.Strings` (`reader.readPackage`: "sort package files before reading
them"); `filepath.Base` and `filepath.Join` are the functions above. -/
def goLibraries {W : Type} (E : Engines W) : Engines W where
  tables := E.tables
  ParseDir := fun w fileSet path =>
    match E.ParseDir w fileSet path with
    | (.ok pkgs, fileSet1, w1) => (.ok (dirPackages path pkgs), fileSet1, w1)
    | (.error err, fileSet1, w1) => (.error err, fileSet1, w1)
  docNew := fun astPkg importPath =>
    { Doc := (E.docNew astPkg importPath).Doc, Name := (E.docNew astPkg importPath).Name,
      Filenames := sortStrings astPkg.Files.keys, Notes := (E.docNew astPkg importPath).Notes,
      Consts := (E.docNew astPkg importPath).Consts, Types := (E.docNew astPkg importPath).Types,
      Vars := (E.docNew astPkg importPath).Vars, Funcs := (E.docNew astPkg importPath).Funcs }
  Check := E.Check
  NewMethodSet := E.NewMethodSet
  docSynopsis := E.docSynopsis
  filepathBase := Base
  filepathJoin := Join
  nilPkgScope := E.nilPkgScope

/-- A package as the code leaves it initialised once the call at hand has
made its `p.init()` in the world `w`. The field `tc` is written by `init`
alone, with the bundle of `toToolchain`: either the once has fired and
`p.tc` is the bundle `tc` that a build has returned without an error (for
the fields the package had and in the world of that time), or the once has
not fired and the build that `init` then runs succeeds with the bundle
`tc`. -/
def BuiltBy {W : Type} (E : Engines W) (p : Package) (w : W) (tc : Toolchain) : Prop :=
  (p.once = true ∧ p.tc = some tc ∧
      ∃ (b : BuildPackage) (w0 : W), (toToolchain E b (some typesInfo) w0).1 = (tc, none)) ∨
    (p.once = false ∧ (toToolchain E p.toBuildPackage (some typesInfo) w).1 = (tc, none))

/-! ## A small package, used to run the definitions

The scope follows the test data of the repository: a type `PublicStruct`
with a value method `MethodOne` and a pointer method `MethodOneP`, a type
without methods, functions and a constant; the type `Dup` has a method `M`
in its value method set and another `M` in its pointer method set. The world counts the calls of the
engines; an empty directory does not parse. The doc package has one block
of three constants, the type `PublicStruct` with one associated function and
two methods, and two notes under the tag `HELLO`. -/

namespace Demo

/-- No letters beyond ASCII. -/
def tables : UnicodeTables := ⟨fun _ => false, fun _ => false⟩

def publicStruct : Object := ⟨ObjKind.TypeName, str "PublicStruct", GoType.basic 1⟩
def plainStruct : Object := ⟨ObjKind.TypeName, str "PlainStruct", GoType.basic 2⟩
def privateStruct : Object := ⟨ObjKind.TypeName, str "privateStruct", GoType.basic 3⟩
def stringFunc : Object := ⟨ObjKind.Func, str "StringFunc", GoType.basic 20⟩
def funcOne : Object := ⟨ObjKind.Func, str "funcOne", GoType.basic 21⟩
def testFoo : Object := ⟨ObjKind.Func, str "TestFoo", GoType.basic 22⟩
def testicular : Object := ⟨ObjKind.Func, str "Testicular", GoType.basic 23⟩
def constantOne : Object := ⟨ObjKind.Const, str "ConstantOne", GoType.basic 30⟩
def methodOne : Object := ⟨ObjKind.Func, str "MethodOne", GoType.basic 10⟩
def methodOneP : Object := ⟨ObjKind.Func, str "MethodOneP", GoType.basic 11⟩
def dupStruct : Object := ⟨ObjKind.TypeName, str "Dup", GoType.basic 4⟩
def dupValue : Object := ⟨ObjKind.Func, str "M", GoType.basic 40⟩
def dupPointer : Object := ⟨ObjKind.Func, str "M", GoType.basic 41⟩

def scope : Scope :=
  ⟨[publicStruct, plainStruct, privateStruct, dupStruct, stringFunc, funcOne, testFoo,
    testicular, constantOne], by decide⟩

def typesPkg : TypesPackage := ⟨str "tpkg", scope⟩

def astPkg : AstPackage :=
  ⟨str "tpkg", ⟨[(str "tpkg.go", ⟨1⟩), (str "tpkg_private.go", ⟨2⟩)], by decide⟩⟩

def constBlock : DocValue :=
  { Doc := str "Constants of tpkg.",
    Names := [str "ConstantOne", str "ConstantTwo", str "ConstantThree"] }

def newPublicStruct : DocFunc := { Name := str "NewPublicStruct" }
def docMethodOne : DocFunc := { Name := str "MethodOne", Recv := str "PublicStruct" }
def docMethodOneP : DocFunc := { Name := str "MethodOneP", Recv := str "*PublicStruct" }

def docPublicStruct : DocType :=
  { Name := str "PublicStruct", Funcs := [newPublicStruct],
    Methods := [docMethodOne, docMethodOneP] }

def helloNotes : List DocNote :=
  [{ UID := str "cstockton", Body := str "Note hello 1 for testing.\n" },
    { UID := str "chris", Body := str "Note hello 2 for testing.\n" }]

def docPkg : DocPackage :=
  { Doc := str "Package tpkg is for testing.", Name := str "tpkg",
    Filenames := [str "testdata/tpkg.go", str "testdata/tpkg_private.go"],
    Notes := ⟨[(str "HELLO", helloNotes)], by decide⟩,
    Consts := [constBlock], Types := [docPublicStruct] }

def fileSet : FileSet := ⟨[str "tpkg.go", str "tpkg_private.go"]⟩

def engines : Engines Nat where
  tables := tables
  ParseDir := fun w _ dir =>
    if dir = [] then (Except.error ⟨1⟩, NewFileSet, w + 1)
    else (Except.ok ⟨[(str "tpkg", astPkg)], by decide⟩, fileSet, w + 1)
  docNew := fun _ _ => docPkg
  Check := fun w _ _ _ => (Except.ok (typesPkg, ⟨[7]⟩), w + 1)
  NewMethodSet := fun t =>
    if t = GoType.basic 1 then [⟨methodOne⟩]
    else if t = GoType.pointer (GoType.basic 1) then [⟨methodOne⟩, ⟨methodOneP⟩]
    else if t = GoType.basic 4 then [⟨dupValue⟩]
    else if t = GoType.pointer (GoType.basic 4) then [⟨dupPointer⟩]
    else []
  docSynopsis := fun d => d
  filepathBase := fun s => (s.reverse.takeWhile fun b => decide (b ≠ 47)).reverse
  filepathJoin := fun d n => d ++ str "/" ++ n
  nilPkgScope := none

/-- The syntax package of the test data as the directory gives it: three
files by the name of their entry, in an order of iteration that is not the
sorted one. -/
def dirPkg : AstPackage :=
  ⟨str "tpkg", ⟨[(str "tpkg_test.go", ⟨3⟩), (str "tpkg_private.go", ⟨2⟩),
    (str "tpkg.go", ⟨1⟩)], by decide⟩⟩

/-- Engines as `engines`, over the directory of `dirPkg`. -/
def dirEngines : Engines Nat :=
  { engines with
    ParseDir := fun w _ dir =>
      if dir = [] then (Except.error ⟨1⟩, NewFileSet, w + 1)
      else (Except.ok ⟨[(str "tpkg", dirPkg)], by decide⟩, fileSet, w + 1) }

/-- The bundle built for the package. -/
def tc : Toolchain :=
  { fileSet := some fileSet, astPkg := some astPkg, docPkg := some docPkg,
    typesPkg := some typesPkg, typesInfo := some ⟨[7]⟩ }

/-- The package as `Import` returns it. -/
def fresh : Package :=
  { Dir := str "testdata", Name := str "tpkg",
    GoFiles := [str "tpkg_private.go", str "tpkg.go"],
    TestGoFiles := [str "tpkg_test.go"], XTestGoFiles := [str "tpkg_example_test.go"] }

/-- The package after its initialisation. -/
def pkg : Package := { fresh with once := true, tc := some tc }

end Demo

/-! ## Lemmas on strings and maps -/

theorem hasPrefix_iff (s pre : GoString) : HasPrefix s pre = true ↔ pre <+: s := by
  unfold HasPrefix
  rw [Bool.and_eq_true, decide_eq_true_iff, decide_eq_true_iff, List.prefix_iff_eq_take]
  constructor
  · rintro ⟨_, h⟩
    exact h.symm
  · intro h
    refine ⟨?_, h.symm⟩
    have := congrArg List.length h
    rw [List.length_take] at this
    omega

theorem isTest_iff (U : UnicodeTables) (name pre : GoString) :
    isTest U name pre = true ↔
      pre <+: name ∧
        (name = pre ∨ IsLower U (DecodeRuneInString (name.drop pre.length)).1 = false) := by
  unfold isTest
  by_cases hp : HasPrefix name pre = true
  · have hpre := (hasPrefix_iff name pre).1 hp
    simp only [hp, Bool.not_true, Bool.false_eq_true, if_false]
    by_cases hl : name.length = pre.length
    · have : name = pre := (hpre.eq_of_length hl.symm).symm
      simp [hl, hpre, this]
    · have hne : name ≠ pre := fun h => hl (by rw [h])
      simp [hl, hpre, hne]
  · have hpre : ¬ pre <+: name := fun h => hp ((hasPrefix_iff name pre).2 h)
    simp [hp, hpre]

/-- C1. `isTest(name, prefix)` holds exactly when `name` starts with
`prefix` and either equals it or has, right after the prefix, a first rune
that is not a lower-case letter. With the prefix `Test`: `Test`, `TestFoo`,
`Test1` and `Test_x` are test-like, `Testicular` and `Tes` are not. -/
theorem C1_isTest_spec (U : UnicodeTables) :
    (∀ name pre : GoString,
      isTest U name pre = true ↔
        pre <+: name ∧
          (name = pre ∨ IsLower U (DecodeRuneInString (name.drop pre.length)).1 = false)) ∧
    isTest U (str "Test") (str "Test") = true ∧
    isTest U (str "TestFoo") (str "Test") = true ∧
    isTest U (str "Test1") (str "Test") = true ∧
    isTest U (str "Test_x") (str "Test") = true ∧
    isTest U (str "Testicular") (str "Test") = false ∧
    isTest U (str "Tes") (str "Test") = false :=
  ⟨isTest_iff U, rfl, rfl, rfl, rfl, rfl, rfl⟩

theorem strLess_irrefl (a : GoString) : strLess a a = false := by
  induction a with
  | nil => rfl
  | cons x xs ih => simp [strLess, ih]

theorem strLess_asymm : ∀ a b : GoString, strLess a b = true → strLess b a = false
  | [], [] => by simp [strLess]
  | [], _ :: _ => by simp [strLess]
  | _ :: _, [] => by simp [strLess]
  | x :: xs, y :: ys => by
    intro h
    simp only [strLess] at h ⊢
    split_ifs at h ⊢
    all_goals first | omega | exact strLess_asymm xs ys h | simp_all

theorem strLess_total : ∀ a b : GoString, strLess a b = false → strLess b a = false → a = b
  | [], [] => by simp
  | [], _ :: _ => by simp [strLess]
  | _ :: _, [] => by simp [strLess]
  | x :: xs, y :: ys => by
    intro h h'
    simp only [strLess] at h h'
    split_ifs at h h'
    have hxy : x = y := by omega
    rw [hxy, strLess_total xs ys h h']

theorem strLess_trans : ∀ a b c : GoString,
    strLess a b = true → strLess b c = true → strLess a c = true
  | [], [], _ => by simp [strLess]
  | [], _ :: _, [] => by simp [strLess]
  | [], _ :: _, _ :: _ => by simp [strLess]
  | _ :: _, [], _ => by simp [strLess]
  | _ :: _, _ :: _, [] => by simp [strLess]
  | x :: xs, y :: ys, z :: zs => by
    intro h h'
    simp only [strLess] at h h' ⊢
    split_ifs at h h' ⊢
    all_goals first | omega | rfl | exact strLess_trans xs ys zs h h'

theorem strLe_total (a b : GoString) : strLe a b ∨ strLe b a := by
  unfold strLe
  cases h : strLess b a
  · exact Or.inl rfl
  · exact Or.inr (strLess_asymm b a h)

theorem strLe_trans (a b c : GoString) (h : strLe a b) (h' : strLe b c) : strLe a c := by
  unfold strLe at *
  cases hca : strLess c a
  · rfl
  · cases hcb : strLess c b
    · have hbc : b = c := strLess_total b c (by
        cases hbc : strLess b c
        · rfl
        · have := strLess_trans b c a hbc hca
          rw [h] at this
          exact absurd this (by simp)) hcb
      subst hbc
      rw [h] at hca
      exact absurd hca (by simp)
    · rw [h'] at hcb
      exact absurd hcb (by simp)

theorem sortStrings_perm (l : List GoString) : (sortStrings l).Perm l :=
  List.perm_insertionSort strLe l

theorem mem_sortStrings (l : List GoString) (k : GoString) : k ∈ sortStrings l ↔ k ∈ l :=
  (sortStrings_perm l).mem_iff

theorem sortStrings_sorted (l : List GoString) : (sortStrings l).Sorted strLe := by
  haveI : IsTotal GoString strLe := ⟨strLe_total⟩
  haveI : IsTrans GoString strLe := ⟨strLe_trans⟩
  exact List.sorted_insertionSort strLe l

/-- On distinct strings `sort.Strings` gives a strictly increasing list. -/
theorem sortStrings_strict (l : List GoString) (h : l.Nodup) :
    (sortStrings l).Pairwise fun a b => strLess a b = true := by
  have hs : (sortStrings l).Pairwise strLe := sortStrings_sorted l
  have hn : (sortStrings l).Pairwise (· ≠ ·) := (sortStrings_perm l).nodup_iff.2 h
  refine (hs.and hn).imp ?_
  rintro a b ⟨hle, hne⟩
  cases hab : strLess a b
  · exact absurd (strLess_total a b hab hle) hne
  · rfl

theorem foldl_append_singleton {α : Type} (l init : List α) :
    l.foldl (fun names k => names ++ [k]) init = init ++ l := by
  induction l generalizing init with
  | nil => simp
  | cons x xs ih => simp [ih]

namespace GoMap

variable {β : Type}

theorem mem_keys_set (m : GoMap β) (k : GoString) (v : β) (k' : GoString) :
    k' ∈ (m.set k v).keys ↔ k' = k ∨ k' ∈ m.keys := by
  unfold keys set
  rw [List.map_append, List.mem_append]
  constructor
  · rintro (h | h)
    · rcases List.mem_map.1 h with ⟨e, he, rfl⟩
      exact Or.inr (List.mem_map.2 ⟨e, (List.mem_filter.1 he).1, rfl⟩)
    · exact Or.inl (by simpa using h)
  · rintro (h | h)
    · exact Or.inr (by simp [h])
    · by_cases hk : k' = k
      · exact Or.inr (by simp [hk])
      · rcases List.mem_map.1 h with ⟨e, he, rfl⟩
        exact Or.inl (List.mem_map.2 ⟨e, List.mem_filter.2 ⟨he, by simpa using hk⟩, rfl⟩)

theorem find?_filter_ne (l : List (GoString × β)) (k k' : GoString) (h : k' ≠ k) :
    List.find? (fun e => decide (e.1 = k')) (List.filter (fun e => decide (e.1 ≠ k)) l) =
      List.find? (fun e => decide (e.1 = k')) l := by
  induction l with
  | nil => rfl
  | cons e es ih =>
    by_cases he : e.1 = k
    · have hne : ¬ e.1 = k' := fun h' => h (h'.symm.trans he)
      have hf : ¬ decide (e.1 ≠ k) = true := by simp [he]
      simp only [List.filter_cons]
      rw [if_neg hf, List.find?_cons_of_neg _ (by simpa using hne)]
      exact ih
    · have hf : decide (e.1 ≠ k) = true := by simp [he]
      simp only [List.filter_cons]
      rw [if_pos hf]
      by_cases he' : e.1 = k'
      · rw [List.find?_cons_of_pos _ (by simpa using he'),
          List.find?_cons_of_pos _ (by simpa using he')]
      · rw [List.find?_cons_of_neg _ (by simpa using he'),
          List.find?_cons_of_neg _ (by simpa using he')]
        exact ih

theorem get?_set_self (m : GoMap β) (k : GoString) (v : β) : (m.set k v).get? k = some v := by
  unfold get? set
  have : List.find? (fun e => decide (e.1 = k))
      (List.filter (fun e => decide (e.1 ≠ k)) m.entries) = none := by
    rw [List.find?_eq_none]
    intro e he
    simpa using (List.mem_filter.1 he).2
  simp [List.find?_append, this]

theorem get?_set_ne (m : GoMap β) (k : GoString) (v : β) (k' : GoString) (h : k' ≠ k) :
    (m.set k v).get? k' = m.get? k' := by
  unfold get? set
  have h2 : List.find? (fun e : GoString × β => decide (e.1 = k')) [(k, v)] = none := by
    rw [List.find?_cons_of_neg _ (by simpa using Ne.symm h)]
    rfl
  simp only [List.find?_append, find?_filter_ne m.entries k k' h, h2, Option.or_none]

theorem get?_isSome_iff (m : GoMap β) (k : GoString) : (m.get? k).isSome = true ↔ k ∈ m.keys := by
  simp only [get?, keys, Option.isSome_map', List.find?_isSome, List.mem_map,
    decide_eq_true_eq]

theorem get?_empty (k : GoString) : (empty : GoMap β).get? k = none := rfl

theorem keys_empty : (empty : GoMap β).keys = [] := rfl

end GoMap

theorem names_perm_keys (m : MethodSet) : m.Names.Perm m.Methods.keys := by
  unfold MethodSet.Names
  rw [foldl_append_singleton]
  exact sortStrings_perm _

/-- C5. For every method set `m`: `m.Names()` is strictly increasing in the
bytewise lexicographic order of Go strings, it holds exactly the keys of
`m.Methods`, each once, and its length is `m.Len()`, the number of distinct
method names of `m.Methods`. -/
theorem C5_names_sorted_keys (m : MethodSet) :
    (m.Names.Pairwise fun a b => strLess a b = true) ∧
    (∀ k, k ∈ m.Names ↔ (m.Methods.get? k).isSome = true) ∧
    m.Names.Perm m.Methods.keys ∧
    m.Names.Nodup ∧
    m.Names.length = m.Len ∧
    m.Len = m.Methods.keys.toFinset.card := by
  have hN : m.Names = sortStrings m.Methods.keys := by
    unfold MethodSet.Names
    rw [foldl_append_singleton]
    rfl
  have hnd : m.Methods.keys.Nodup := m.Methods.nodup
  have hperm : m.Names.Perm m.Methods.keys := hN ▸ sortStrings_perm _
  refine ⟨hN ▸ sortStrings_strict _ hnd, ?_, hperm, hperm.nodup_iff.2 hnd, ?_, ?_⟩
  · intro k
    rw [hperm.mem_iff, GoMap.get?_isSome_iff]
  · rw [hperm.length_eq]
    simp [MethodSet.Len, GoMap.len, GoMap.keys]
  · rw [List.toFinset_card_of_nodup hnd]
    simp [MethodSet.Len, GoMap.len, GoMap.keys]

/-! ## Lemmas on the scope and on `init` -/

theorem lookup_some (s : Scope) (name : GoString) (obj : Object)
    (h : s.Lookup name = some obj) : obj ∈ s.objs ∧ obj.name = name := by
  unfold Scope.Lookup at h
  exact ⟨List.mem_of_find?_eq_some h, by simpa using List.find?_some h⟩

theorem lookup_none (s : Scope) (name : GoString) :
    s.Lookup name = none ↔ ∀ obj ∈ s.objs, obj.name ≠ name := by
  unfold Scope.Lookup
  simp [List.find?_eq_none]

theorem find?_name_of_mem (l : List Object) (h : (l.map Object.name).Nodup) (obj : Object)
    (hm : obj ∈ l) : l.find? (fun o => decide (o.name = obj.name)) = some obj := by
  induction l with
  | nil => simp at hm
  | cons x xs ih =>
    rw [List.map_cons, List.nodup_cons] at h
    rcases List.mem_cons.1 hm with rfl | hm'
    · simp
    · have hne : ¬ x.name = obj.name := fun e => h.1 (e ▸ List.mem_map_of_mem Object.name hm')
      rw [List.find?_cons_of_neg _ (by simpa using hne)]
      exact ih h.2 hm'

theorem lookup_of_mem (s : Scope) (obj : Object) (hm : obj ∈ s.objs) :
    s.Lookup obj.name = some obj :=
  find?_name_of_mem s.objs s.nodup obj hm

theorem mem_names (s : Scope) (name : GoString) :
    name ∈ s.Names ↔ ∃ obj ∈ s.objs, obj.name = name := by
  unfold Scope.Names
  rw [mem_sortStrings, List.mem_map]

theorem init_of_once {W : Type} (E : Engines W) (p : Package) (w : W) (h : p.once = true) :
    init E p w = ⟨some none, p, w, []⟩ := by
  unfold init
  rw [if_pos h]

theorem methodSet_of_initialised {W : Type} (E : Engines W) (p : Package) (w : W)
    (tc : Toolchain) (tp : TypesPackage) (h : Initialised p tc) (htp : tc.typesPkg = some tp)
    (name : GoString) :
    Package.MethodSet E p w name = ⟨some (methodSetIn E tp.scope name), p, w, []⟩ := by
  unfold Package.MethodSet
  rw [init_of_once E p w h.1]
  simp only [h.2.1, scopeOf, htp]

theorem filter_eq_isPublicName (U : UnicodeTables) (obj : Object) (name : GoString)
    (h : obj.name = name) :
    (!obj.Exported U || isTest U name (str "Test") || isTest U name (str "Example")) =
      !isPublicName U name := by
  unfold isPublicName Object.Exported
  rw [h]
  cases IsExported U name <;> cases isTest U name (str "Test") <;>
    cases isTest U name (str "Example") <;> rfl

/-- The result of `methodSetIn` in its three cases. -/
theorem methodSetIn_cases {W : Type} (E : Engines W) (scope : Scope) (name : GoString) :
    (scope.Lookup name = none ∧
      methodSetIn E scope name =
        (MethodSet.zero, some (Error.errorf (str "named type was not found")))) ∨
    (∃ obj, scope.Lookup name = some obj ∧ isPublicName E.tables name = false ∧
      methodSetIn E scope name =
        (MethodSet.zero, some (Error.errorf (str "named type was not exported")))) ∨
    (∃ obj, scope.Lookup name = some obj ∧ isPublicName E.tables name = true ∧
      methodSetIn E scope name =
        (addMethods (addMethods (NewMethodSet name obj) (E.NewMethodSet obj.typ))
          (E.NewMethodSet (GoType.pointer obj.typ)), none)) := by
  unfold methodSetIn
  cases hl : scope.Lookup name with
  | none => exact Or.inl ⟨rfl, rfl⟩
  | some obj =>
    have hn := (lookup_some scope name obj hl).2
    simp only [filter_eq_isPublicName E.tables obj name hn]
    cases hp : isPublicName E.tables name
    · exact Or.inr (Or.inl ⟨obj, rfl, rfl, by simp⟩)
    · exact Or.inr (Or.inr ⟨obj, rfl, rfl, by simp [List.foldl]⟩)

/-- The errors of `methodSetIn` on a scope: no error exactly for a declared,
exported name that is not test-like; `named type was not found` for a name
that is not declared; `named type was not exported` for a declared name
that does not pass the filter; with an error the zero method set. -/
theorem methodSetIn_errors {W : Type} (E : Engines W) (scope : Scope) (name : GoString) :
    ∃ ms err, methodSetIn E scope name = (ms, err) ∧
      (err = none ↔
        (∃ obj ∈ scope.objs, obj.name = name) ∧ IsExported E.tables name = true ∧
          isTest E.tables name (str "Test") = false ∧
          isTest E.tables name (str "Example") = false) ∧
      ((∀ obj ∈ scope.objs, obj.name ≠ name) →
        err = some (Error.errorf (str "named type was not found"))) ∧
      ((∃ obj ∈ scope.objs, obj.name = name) →
        (IsExported E.tables name = false ∨ isTest E.tables name (str "Test") = true ∨
          isTest E.tables name (str "Example") = true) →
        err = some (Error.errorf (str "named type was not exported"))) ∧
      (err ≠ none → ms = MethodSet.zero) := by
  have hpub : isPublicName E.tables name = true ↔
      IsExported E.tables name = true ∧ isTest E.tables name (str "Test") = false ∧
        isTest E.tables name (str "Example") = false := by
    unfold isPublicName
    cases IsExported E.tables name <;> cases isTest E.tables name (str "Test") <;>
      cases isTest E.tables name (str "Example") <;> simp
  rcases methodSetIn_cases E scope name with ⟨hl, he⟩ | ⟨obj, hl, hp, he⟩ | ⟨obj, hl, hp, he⟩
  · have hno := (lookup_none scope name).1 hl
    refine ⟨_, _, he, ?_, fun _ => rfl, ?_, fun _ => rfl⟩
    · constructor
      · intro h'
        cases h'
      · rintro ⟨⟨obj, ho, hn⟩, _⟩
        exact absurd hn (hno obj ho)
    · rintro ⟨obj, ho, hn⟩
      exact absurd hn (hno obj ho)
  · have hm := lookup_some scope name obj hl
    refine ⟨_, _, he, ?_, ?_, fun _ _ => rfl, fun _ => rfl⟩
    · constructor
      · intro h'
        cases h'
      · rintro ⟨_, h'⟩
        rw [hpub.2 h'] at hp
        cases hp
    · intro hno
      exact absurd hm.2 (hno obj hm.1)
  · have hm := lookup_some scope name obj hl
    have hp' := hpub.1 hp
    refine ⟨_, _, he, ?_, ?_, ?_, fun h' => absurd rfl h'⟩
    · exact ⟨fun _ => ⟨⟨obj, hm.1, hm.2⟩, hp'⟩, fun _ => rfl⟩
    · intro hno
      exact absurd hm.2 (hno obj hm.1)
    · rintro _ (h1 | h1 | h1)
      · rw [hp'.1] at h1
        cases h1
      · rw [hp'.2.1] at h1
        cases h1
      · rw [hp'.2.2] at h1
        cases h1

theorem Demo.initialised : Initialised Demo.pkg Demo.tc :=
  ⟨rfl, rfl, rfl, rfl, rfl, rfl, rfl⟩

/-! ## Lemmas on the loops of `MethodSet` -/

theorem addMethods_append (ms : MethodSet) (l : List Selection) (z : Selection) :
    addMethods ms (l ++ [z]) =
      match z.obj.kind with
      | ObjKind.Func =>
        { addMethods ms l with
          Methods := (addMethods ms l).Methods.set z.obj.name (NewFunction z.obj) }
      | _ => addMethods ms l := by
  unfold addMethods
  rw [List.foldl_append]
  rfl

theorem addMethods_name (ms : MethodSet) (l : List Selection) :
    (addMethods ms l).Name = ms.Name ∧ (addMethods ms l).Obj = ms.Obj := by
  induction l using List.reverseRecOn with
  | nil => exact ⟨rfl, rfl⟩
  | append_singleton l z ih =>
    rw [addMethods_append]
    cases z.obj.kind <;> exact ih

theorem mem_keys_addMethods (ms : MethodSet) (l : List Selection) (k : GoString) :
    k ∈ (addMethods ms l).Methods.keys ↔ k ∈ ms.Methods.keys ∨ k ∈ funcNames l := by
  induction l using List.reverseRecOn with
  | nil => simp [addMethods, funcNames]
  | append_singleton l z ih =>
    rw [addMethods_append]
    cases hk : z.obj.kind with
    | Func =>
      simp only [GoMap.mem_keys_set, ih, funcNames, List.filter_append, List.map_append,
        List.mem_append, List.filter_cons, hk, decide_True, if_true, List.filter_nil,
        List.map_cons, List.map_nil, List.mem_singleton]
      tauto
    | _ =>
      simp only [ih, funcNames, List.filter_append, List.map_append, List.mem_append,
        List.filter_cons, hk, List.filter_nil, List.map_nil, List.not_mem_nil, or_false]
      simp

theorem get?_addMethods (ms : MethodSet) (l : List Selection) (k : GoString) :
    (addMethods ms l).Methods.get? k =
      match l.reverse.find? (isFuncNamed k) with
      | some z => some (NewFunction z.obj)
      | none => ms.Methods.get? k := by
  induction l using List.reverseRecOn with
  | nil => rfl
  | append_singleton l z ih =>
    rw [addMethods_append, List.reverse_append, List.reverse_singleton, List.singleton_append]
    by_cases hz : isFuncNamed k z = true
    · rw [List.find?_cons_of_pos _ hz]
      have hz' : z.obj.kind = ObjKind.Func ∧ z.obj.name = k := by
        simpa [isFuncNamed] using hz
      simp only [hz'.1, hz'.2, GoMap.get?_set_self]
    · rw [List.find?_cons_of_neg _ hz, ← ih]
      cases hk : z.obj.kind with
      | Func =>
        have hne : k ≠ z.obj.name := by
          intro e
          exact hz (by simp [isFuncNamed, hk, e])
        simp only [GoMap.get?_set_ne _ _ _ _ hne]
      | _ => rfl

theorem addMethods_names_eq (ms : MethodSet) (l : List Selection)
    (h : ∀ k f, ms.Methods.get? k = some f → f.Name = k) :
    ∀ k f, (addMethods ms l).Methods.get? k = some f → f.Name = k := by
  intro k f hf
  rw [get?_addMethods] at hf
  cases hfind : l.reverse.find? (isFuncNamed k) with
  | none =>
    rw [hfind] at hf
    exact h k f hf
  | some z =>
    rw [hfind] at hf
    have hz : z.obj.kind = ObjKind.Func ∧ z.obj.name = k := by
      simpa [isFuncNamed] using List.find?_some hfind
    cases hf
    exact hz.2

/-- A successful `methodSetIn` is the third case of `methodSetIn_cases`. -/
theorem methodSetIn_ok {W : Type} (E : Engines W) (scope : Scope) (name : GoString)
    (ms : MethodSet) (h : methodSetIn E scope name = (ms, none)) :
    ∃ obj, scope.Lookup name = some obj ∧ isPublicName E.tables name = true ∧
      ms = addMethods (addMethods (NewMethodSet name obj) (E.NewMethodSet obj.typ))
        (E.NewMethodSet (GoType.pointer obj.typ)) := by
  rcases methodSetIn_cases E scope name with ⟨_, he⟩ | ⟨obj, _, _, he⟩ | ⟨obj, hl, hp, he⟩
  · rw [he] at h
    cases h
  · rw [he] at h
    cases h
  · rw [he] at h
    exact ⟨obj, hl, hp, (congrArg Prod.fst h).symm⟩

theorem val_methodSet_of_initialised {W : Type} (E : Engines W) (p : Package) (w : W)
    (tc : Toolchain) (tp : TypesPackage) (h : Initialised p tc) (htp : tc.typesPkg = some tp)
    (name : GoString) (r : MethodSet × Option Error) :
    (Package.MethodSet E p w name).val = some r ↔ methodSetIn E tp.scope name = r := by
  rw [methodSet_of_initialised E p w tc tp h htp name]
  exact ⟨fun h' => Option.some.inj h', fun h' => congrArg some h'⟩

/-- A successful `methodSetIn`: the keys are the names of the function
members of the two method sets, `Len` is their number, the name is the one
asked for and every function is stored under its own name. -/
theorem methodSetIn_union {W : Type} (E : Engines W) (scope : Scope) (name : GoString)
    (ms : MethodSet) (hs : methodSetIn E scope name = (ms, none)) :
    ∃ obj, scope.Lookup name = some obj ∧ ms.Name = name ∧ ms.Obj = some obj ∧
      (∀ k, k ∈ ms.Methods.keys ↔
        k ∈ funcNames (E.NewMethodSet obj.typ) ∨
          k ∈ funcNames (E.NewMethodSet (GoType.pointer obj.typ))) ∧
      ms.Len = ((funcNames (E.NewMethodSet obj.typ)).toFinset ∪
        (funcNames (E.NewMethodSet (GoType.pointer obj.typ))).toFinset).card ∧
      (∀ k f, ms.Methods.get? k = some f → f.Name = k) ∧
      (∀ a b : Object, a.kind = ObjKind.Func → b.kind = ObjKind.Func → a.name ≠ b.name →
        E.NewMethodSet obj.typ = [⟨a⟩] →
        E.NewMethodSet (GoType.pointer obj.typ) = [⟨a⟩, ⟨b⟩] →
        (∀ k, k ∈ ms.Names ↔ k = a.name ∨ k = b.name) ∧ ms.Len = 2) := by
  obtain ⟨obj, hl, _, hms⟩ := methodSetIn_ok E scope name ms hs
  have hkeys : ∀ k, k ∈ ms.Methods.keys ↔
      k ∈ funcNames (E.NewMethodSet obj.typ) ∨
        k ∈ funcNames (E.NewMethodSet (GoType.pointer obj.typ)) := by
    intro k
    rw [hms, mem_keys_addMethods, mem_keys_addMethods]
    simp [NewMethodSet, GoMap.keys_empty]
  have hlen : ms.Len = ((funcNames (E.NewMethodSet obj.typ)).toFinset ∪
      (funcNames (E.NewMethodSet (GoType.pointer obj.typ))).toFinset).card := by
    have e : ms.Methods.keys.toFinset = (funcNames (E.NewMethodSet obj.typ)).toFinset ∪
        (funcNames (E.NewMethodSet (GoType.pointer obj.typ))).toFinset := by
      ext k
      simp [hkeys k]
    rw [← e, List.toFinset_card_of_nodup (show ms.Methods.keys.Nodup from ms.Methods.nodup)]
    simp [MethodSet.Len, GoMap.len, GoMap.keys]
  refine ⟨obj, hl, ?_, ?_, hkeys, hlen, ?_, ?_⟩
  · rw [hms, (addMethods_name _ _).1, (addMethods_name _ _).1]
    rfl
  · rw [hms, (addMethods_name _ _).2, (addMethods_name _ _).2]
    rfl
  · rw [hms]
    refine addMethods_names_eq _ _ (addMethods_names_eq _ _ ?_)
    intro k f hf
    simp [NewMethodSet, GoMap.get?_empty] at hf
  · intro a b ha hb hab hv hp
    constructor
    · intro k
      rw [(names_perm_keys ms).mem_iff, hkeys k, hv, hp]
      simp [funcNames, ha, hb]
    · have e1 : funcNames [(⟨a⟩ : Selection)] = [a.name] := by simp [funcNames, ha]
      have e2 : funcNames [(⟨a⟩ : Selection), ⟨b⟩] = [a.name, b.name] := by
        simp [funcNames, ha, hb]
      have e3 : [a.name].toFinset ∪ [a.name, b.name].toFinset = {a.name, b.name} := by
        ext x
        simp
      rw [hlen, hv, hp, e1, e2, e3]
      exact Finset.card_pair hab

/-- Last write wins in `methodSetIn`: a function name of the pointer method
set is a key once, with the function of the pointer method set. -/
theorem methodSetIn_pointer {W : Type} (E : Engines W) (scope : Scope)
    (name : GoString) (obj : Object) (hl : scope.Lookup name = some obj)
    (hpub : isPublicName E.tables name = true) (k : GoString) (zp : Selection)
    (hp : (E.NewMethodSet (GoType.pointer obj.typ)).reverse.find? (isFuncNamed k) = some zp) :
    ∃ ms, methodSetIn E scope name = (ms, none) ∧
      ms.Methods.keys.countP (fun x => decide (x = k)) = 1 ∧
      ms.Methods.get? k = some (NewFunction zp.obj) ∧
      zp ∈ E.NewMethodSet (GoType.pointer obj.typ) := by
  rcases methodSetIn_cases E scope name with ⟨hl', _⟩ | ⟨_, _, hp', _⟩ | ⟨obj', hl', _, he⟩
  · rw [hl] at hl'
    cases hl'
  · rw [hpub] at hp'
    cases hp'
  · rw [hl] at hl'
    cases hl'
    refine ⟨_, he, ?_, ?_, ?_⟩
    · have hget : ((addMethods (addMethods (NewMethodSet name obj) (E.NewMethodSet obj.typ))
          (E.NewMethodSet (GoType.pointer obj.typ))).Methods.get? k).isSome = true := by
        rw [get?_addMethods, hp]
        rfl
      exact List.count_eq_one_of_mem (GoMap.nodup _) ((GoMap.get?_isSome_iff _ _).1 hget)
    · rw [get?_addMethods, hp]
    · exact List.mem_reverse.1 (List.mem_of_find?_eq_some hp)

/-! ## Lemmas on the loop of `Functions` -/

theorem functions_fold (U : UnicodeTables) (scope : Scope) (L : List GoString)
    (hL : ∀ n ∈ L, ∃ obj, scope.Lookup n = some obj) (init : List Function) :
    L.foldl
      (fun acc name =>
        match acc with
        | none => none
        | some funcs =>
          match scope.Lookup name with
          | none => none
          | some obj =>
            if !obj.Exported U || isTest U name (str "Test")
                || isTest U name (str "Example") then some funcs
            else
              match obj.kind with
              | ObjKind.Func => some (funcs ++ [NewFunction obj])
              | _ => some funcs)
      (some init) =
    some (init ++ ((L.filterMap scope.Lookup).filter (keepFunc U)).map NewFunction) := by
  induction L generalizing init with
  | nil => simp
  | cons n L ih =>
    obtain ⟨obj, ho⟩ := hL n (List.mem_cons_self n L)
    have hL' : ∀ m ∈ L, ∃ obj, scope.Lookup m = some obj :=
      fun m hm => hL m (List.mem_cons_of_mem n hm)
    have hn := (lookup_some scope n obj ho).2
    rw [List.foldl_cons, List.filterMap_cons_some ho]
    simp only [ho, filter_eq_isPublicName U obj n hn]
    cases hp : isPublicName U n
    · have hk : keepFunc U obj = false := by simp [keepFunc, hn, hp]
      simp only [Bool.not_false, if_true]
      rw [ih hL', List.filter_cons_of_neg (by simp [hk])]
    · simp only [Bool.not_true, Bool.false_eq_true, if_false]
      cases hkind : obj.kind with
      | Func =>
        have hk : keepFunc U obj = true := by simp [keepFunc, hn, hp, hkind]
        simp only []
        rw [ih hL', List.filter_cons_of_pos hk]
        simp
      | _ =>
        have hk : keepFunc U obj = false := by simp [keepFunc, hkind]
        simp only []
        rw [ih hL', List.filter_cons_of_neg (by simp [hk])]

theorem kept_names_sublist (scope : Scope) (q : Object → Bool) (L : List GoString) :
    (((L.filterMap scope.Lookup).filter q).map Object.name).Sublist L := by
  induction L with
  | nil => simp
  | cons n L ih =>
    cases ho : scope.Lookup n with
    | none =>
      rw [List.filterMap_cons_none ho]
      exact ih.cons n
    | some obj =>
      have hn := (lookup_some scope n obj ho).2
      rw [List.filterMap_cons_some ho]
      cases hq : q obj
      · rw [List.filter_cons_of_neg (by simp [hq])]
        exact ih.cons n
      · rw [List.filter_cons_of_pos hq, List.map_cons, hn]
        exact ih.cons₂ n

theorem mem_filterMap_lookup (scope : Scope) (obj : Object) :
    obj ∈ scope.Names.filterMap scope.Lookup ↔ obj ∈ scope.objs := by
  rw [List.mem_filterMap]
  constructor
  · rintro ⟨n, _, hn⟩
    exact (lookup_some scope n obj hn).1
  · intro hm
    exact ⟨obj.name, (mem_names scope obj.name).2 ⟨obj, hm, rfl⟩, lookup_of_mem scope obj hm⟩

theorem isPublicName_iff (U : UnicodeTables) (name : GoString) :
    isPublicName U name = true ↔
      IsExported U name = true ∧ isTest U name (str "Test") = false ∧
        isTest U name (str "Example") = false := by
  unfold isPublicName
  cases IsExported U name <;> cases isTest U name (str "Test") <;>
    cases isTest U name (str "Example") <;> simp

/-- The result of `Functions()` on a package that is initialised before the
call: the exported functions of the scope that are not test-like, in the
order of the names of the scope. -/
theorem functions_of_initialised {W : Type} (E : Engines W) (p : Package) (w : W)
    (tc : Toolchain) (tp : TypesPackage) (h : Initialised p tc) (htp : tc.typesPkg = some tp) :
    ∃ funcs, (Package.Functions E p w).val = some funcs ∧
      funcs = ((tp.scope.Names.filterMap tp.scope.Lookup).filter
        (keepFunc E.tables)).map NewFunction ∧
      (funcs.map Function.Name).Sublist tp.scope.Names ∧
      (∀ f, f ∈ funcs ↔ ∃ obj ∈ tp.scope.objs, obj.kind = ObjKind.Func ∧
        IsExported E.tables obj.name = true ∧ isTest E.tables obj.name (str "Test") = false ∧
        isTest E.tables obj.name (str "Example") = false ∧ f = NewFunction obj) ∧
      (∀ f ∈ funcs, f.Name ≠ str "Test" ∧ f.Name ≠ str "TestFoo" ∧ f.Name ≠ str "Example" ∧
        f.Name ≠ str "ExampleBar" ∧ IsExported E.tables f.Name = true) ∧
      (∀ obj ∈ tp.scope.objs, obj.kind = ObjKind.Func → obj.name = str "Testicular" →
        NewFunction obj ∈ funcs) := by
  have hval : (Package.Functions E p w).val =
      some (((tp.scope.Names.filterMap tp.scope.Lookup).filter
        (keepFunc E.tables)).map NewFunction) := by
    unfold Package.Functions
    rw [init_of_once E p w h.1]
    simp only [h.2.1, scopeOf, htp]
    rw [functions_fold E.tables tp.scope tp.scope.Names]
    · simp
    · intro n hn
      obtain ⟨obj, ho, rfl⟩ := (mem_names tp.scope n).1 hn
      exact ⟨obj, lookup_of_mem tp.scope obj ho⟩
  have hmem : ∀ f, f ∈ ((tp.scope.Names.filterMap tp.scope.Lookup).filter
      (keepFunc E.tables)).map NewFunction ↔ ∃ obj ∈ tp.scope.objs, obj.kind = ObjKind.Func ∧
        IsExported E.tables obj.name = true ∧ isTest E.tables obj.name (str "Test") = false ∧
        isTest E.tables obj.name (str "Example") = false ∧ f = NewFunction obj := by
    intro f
    simp only [List.mem_map, List.mem_filter, mem_filterMap_lookup, keepFunc,
      Bool.and_eq_true, decide_eq_true_eq, isPublicName_iff]
    constructor
    · rintro ⟨obj, ⟨ho, hk, hp⟩, rfl⟩
      exact ⟨obj, ho, hk, hp.1, hp.2.1, hp.2.2, rfl⟩
    · rintro ⟨obj, ho, hk, h1, h2, h3, rfl⟩
      exact ⟨obj, ⟨ho, hk, h1, h2, h3⟩, rfl⟩
  refine ⟨_, hval, rfl, ?_, hmem, ?_, ?_⟩
  · have := kept_names_sublist tp.scope (keepFunc E.tables) tp.scope.Names
    simpa [List.map_map, Function.comp_def, Function.Name, NewFunction] using this
  · intro f hf
    obtain ⟨obj, _, _, h1, h2, h3, rfl⟩ := (hmem f).1 hf
    have hN : (NewFunction obj).Name = obj.name := rfl
    rw [hN]
    refine ⟨?_, ?_, ?_, ?_, h1⟩
    · intro e
      rw [e] at h2
      cases h2
    · intro e
      rw [e] at h2
      cases h2
    · intro e
      rw [e] at h3
      cases h3
    · intro e
      rw [e] at h3
      cases h3
  · intro obj ho hk hn
    refine (hmem _).2 ⟨obj, ho, hk, ?_, ?_, ?_, rfl⟩
    · rw [hn]
      rfl
    · rw [hn]
      rfl
    · rw [hn]
      rfl

/-! ## Lemmas on the loop of `Methods` -/

theorem methodsStep_eq {W : Type} (E : Engines W) (scope : Scope) (M : GoMap MethodSet)
    (name : GoString) :
    methodsStep E scope M name =
      if hasMethods E scope name = true then M.set name (methodSetIn E scope name).1 else M := by
  unfold methodsStep hasMethods
  rcases hr : methodSetIn E scope name with ⟨ms, _ | err⟩
  · by_cases hlen : ms.Len > 0 <;> simp [hlen]
  · simp

theorem methods_fold_state {W : Type} (E : Engines W) (p : Package) (w : W)
    (tc : Toolchain) (tp : TypesPackage) (h : Initialised p tc) (htp : tc.typesPkg = some tp)
    (L : List GoString) (M : GoMap MethodSet) (tr : List Stage) :
    L.foldl (methodsRound E) ⟨some M, p, w, tr⟩ =
      ⟨some (L.foldl (methodsStep E tp.scope) M), p, w, tr⟩ := by
  induction L generalizing M with
  | nil => rfl
  | cons n L ih =>
    rw [List.foldl_cons, List.foldl_cons]
    unfold methodsRound methodsStep
    simp only [methodSet_of_initialised E p w tc tp h htp, List.append_nil]
    rcases hr : methodSetIn E tp.scope n with ⟨ms, _ | err⟩
    · by_cases hlen : ms.Len > 0
      · simp only [hlen, if_true]
        exact ih _
      · simp only [hlen, if_false]
        exact ih _
    · exact ih _

theorem get?_methods_fold {W : Type} (E : Engines W) (scope : Scope) (L : List GoString)
    (M : GoMap MethodSet) (k : GoString) :
    (L.foldl (methodsStep E scope) M).get? k =
      if k ∈ L ∧ hasMethods E scope k = true then some (methodSetIn E scope k).1
      else M.get? k := by
  induction L generalizing M with
  | nil => simp
  | cons n L ih =>
    rw [List.foldl_cons, ih, methodsStep_eq]
    have hstep : k ≠ n →
        (if hasMethods E scope n = true then M.set n (methodSetIn E scope n).1 else M).get? k =
          M.get? k := by
      intro hn
      by_cases hm : hasMethods E scope n = true
      · rw [if_pos hm]
        exact GoMap.get?_set_ne _ _ _ _ hn
      · rw [if_neg hm]
    by_cases hk : hasMethods E scope k = true
    · by_cases hL : k ∈ L
      · rw [if_pos (show k ∈ L ∧ hasMethods E scope k = true from ⟨hL, hk⟩),
          if_pos (show k ∈ n :: L ∧ hasMethods E scope k = true from
            ⟨List.mem_cons_of_mem n hL, hk⟩)]
      · rw [if_neg (show ¬ (k ∈ L ∧ hasMethods E scope k = true) from fun c => hL c.1)]
        by_cases hn : k = n
        · subst hn
          rw [if_pos hk, if_pos (show k ∈ k :: L ∧ hasMethods E scope k = true from
            ⟨List.mem_cons_self k L, hk⟩)]
          exact GoMap.get?_set_self _ _ _
        · rw [hstep hn, if_neg]
          rintro ⟨c, _⟩
          rcases List.mem_cons.1 c with e | e
          · exact hn e
          · exact hL e
    · rw [if_neg (show ¬ (k ∈ L ∧ hasMethods E scope k = true) from fun c => hk c.2),
        if_neg (show ¬ (k ∈ n :: L ∧ hasMethods E scope k = true) from fun c => hk c.2)]
      by_cases hn : k = n
      · subst hn
        rw [if_neg hk]
      · exact hstep hn

/-- The map of `Methods()` on a package that is initialised before the
call: `ms` is stored under `name` exactly when `name` is a name of the scope
on which `MethodSet(name)` succeeds with `ms`, and `ms` has a method. -/
theorem methods_of_initialised {W : Type} (E : Engines W) (p : Package) (w : W)
    (tc : Toolchain) (tp : TypesPackage) (h : Initialised p tc) (htp : tc.typesPkg = some tp) :
    ∃ methods, (Package.Methods E p w).val = some methods ∧
      (∀ name ms, methods.get? name = some ms ↔
        name ∈ tp.scope.Names ∧ (Package.MethodSet E p w name).val = some (ms, none) ∧
          ms.Len > 0) ∧
      (∀ name, name ∈ methods.keys ↔
        name ∈ tp.scope.Names ∧
          ∃ ms, (Package.MethodSet E p w name).val = some (ms, none) ∧ ms.Len > 0) ∧
      (∀ name ms, methods.get? name = some ms →
        ms.Name = name ∧ ms.Len > 0 ∧ IsExported E.tables name = true ∧
          isTest E.tables name (str "Test") = false ∧
          isTest E.tables name (str "Example") = false) := by
  have hval : (Package.Methods E p w).val =
      some (tp.scope.Names.foldl (methodsStep E tp.scope) GoMap.empty) := by
    unfold Package.Methods
    rw [init_of_once E p w h.1]
    simp only [h.2.1, scopeOf, htp]
    rw [methods_fold_state E p w tc tp h htp]
  have hget : ∀ name ms,
      (tp.scope.Names.foldl (methodsStep E tp.scope) GoMap.empty).get? name = some ms ↔
        name ∈ tp.scope.Names ∧ (Package.MethodSet E p w name).val = some (ms, none) ∧
          ms.Len > 0 := by
    intro name ms
    rw [get?_methods_fold, val_methodSet_of_initialised E p w tc tp h htp, GoMap.get?_empty]
    unfold hasMethods
    rcases hr : methodSetIn E tp.scope name with ⟨ms', _ | err⟩
    · by_cases hN : name ∈ tp.scope.Names
      · by_cases hlen : ms'.Len > 0
        · simp only [hN, hlen, Option.isNone_none, decide_True, Bool.and_self, and_self,
            if_true, Option.some.injEq, Prod.mk.injEq, and_true, true_and]
          constructor
          · rintro rfl
            exact ⟨rfl, hlen⟩
          · rintro ⟨rfl, _⟩
            rfl
        · simp only [hN, hlen, decide_False, Bool.and_false, Bool.false_eq_true, and_false,
            if_false, Prod.mk.injEq, and_true, true_and, false_iff, not_and]
          constructor
          · intro c
            cases c
          · rintro ⟨rfl, c⟩
            exact absurd c hlen
      · simp [hN]
    · simp
  refine ⟨_, hval, hget, ?_, ?_⟩
  · intro name
    rw [← GoMap.get?_isSome_iff, Option.isSome_iff_exists]
    constructor
    · rintro ⟨ms, hms⟩
      obtain ⟨h1, h2, h3⟩ := (hget name ms).1 hms
      exact ⟨h1, ms, h2, h3⟩
    · rintro ⟨h1, ms, h2, h3⟩
      exact ⟨ms, (hget name ms).2 ⟨h1, h2, h3⟩⟩
  · intro name ms hms
    obtain ⟨_, h2, h3⟩ := (hget name ms).1 hms
    obtain ⟨obj, _, hp, hms'⟩ := methodSetIn_ok E tp.scope name ms
      ((val_methodSet_of_initialised E p w tc tp h htp name _).1 h2)
    refine ⟨?_, h3, (isPublicName_iff E.tables name).1 hp⟩
    rw [hms', (addMethods_name _ _).1, (addMethods_name _ _).1]
    rfl

/-! ## The toolchain builder -/

/-- The five runs of `toToolchain`: a stage fails, or all succeed. -/
theorem toToolchain_cases {W : Type} (E : Engines W) (p : BuildPackage)
    (ti : Option TypesInfo) (w : W) :
    (∃ e, (firstParse E p w).1 = Except.error e ∧
      toToolchain E p ti w =
        (({}, some (Error.parse e)), (firstParse E p w).2.2, [Stage.parse])) ∨
    (∃ pkgs e, (firstParse E p w).1 = Except.ok pkgs ∧
      (secondParse E p w).1 = Except.error e ∧
      toToolchain E p ti w =
        (({}, some (Error.parse e)), (secondParse E p w).2.2,
          [Stage.parse, Stage.docParse])) ∨
    (∃ pkgs docPkgs, (firstParse E p w).1 = Except.ok pkgs ∧
      (secondParse E p w).1 = Except.ok docPkgs ∧
      (pkgs.get? p.Name = none ∨ docPkgs.get? p.Name = none) ∧
      toToolchain E p ti w =
        (({}, some (pkgNotFound p.Name p.Dir)), (secondParse E p w).2.2,
          [Stage.parse, Stage.docParse, Stage.lookup])) ∨
    (∃ pkgs docPkgs astPkg docAstPkg e, (firstParse E p w).1 = Except.ok pkgs ∧
      (secondParse E p w).1 = Except.ok docPkgs ∧
      pkgs.get? p.Name = some astPkg ∧ docPkgs.get? p.Name = some docAstPkg ∧
      (typeCheck E p w astPkg).1 = Except.error e ∧
      toToolchain E p ti w =
        (({}, some (Error.check e)), (typeCheck E p w astPkg).2,
          [Stage.parse, Stage.docParse, Stage.lookup, Stage.typeCheck])) ∨
    (∃ pkgs docPkgs astPkg docAstPkg typesPkg facts, (firstParse E p w).1 = Except.ok pkgs ∧
      (secondParse E p w).1 = Except.ok docPkgs ∧
      pkgs.get? p.Name = some astPkg ∧ docPkgs.get? p.Name = some docAstPkg ∧
      (typeCheck E p w astPkg).1 = Except.ok (typesPkg, facts) ∧
      toToolchain E p ti w =
        (({ fileSet := some (firstParse E p w).2.1, astPkg := some astPkg,
            docPkg := some (E.docNew docAstPkg p.Dir), typesPkg := some typesPkg,
            typesInfo := ti.map fun _ => facts }, none), (typeCheck E p w astPkg).2,
          [Stage.parse, Stage.docParse, Stage.lookup, Stage.typeCheck])) := by
  unfold typeCheck secondParse firstParse toToolchain
  dsimp only
  rcases h1 : E.ParseDir w NewFileSet p.Dir with ⟨e1 | pkgs, fs1, w1⟩
  · exact Or.inl ⟨e1, rfl, rfl⟩
  · dsimp only
    rcases h2 : E.ParseDir w1 NewFileSet p.Dir with ⟨e2 | docPkgs, fs2, w2⟩
    · exact Or.inr (Or.inl ⟨pkgs, e2, rfl, rfl, rfl⟩)
    · dsimp only
      cases ha : pkgs.get? p.Name with
      | none => exact Or.inr (Or.inr (Or.inl ⟨pkgs, docPkgs, rfl, rfl, Or.inl ha, rfl⟩))
      | some astPkg =>
        cases hd : docPkgs.get? p.Name with
        | none => exact Or.inr (Or.inr (Or.inl ⟨pkgs, docPkgs, rfl, rfl, Or.inr hd, rfl⟩))
        | some docAstPkg =>
          dsimp only
          rcases h3 : E.Check w2 p.Name fs1 (astFiles astPkg) with ⟨e3 | ⟨typesPkg, facts⟩, w3⟩
          · exact Or.inr (Or.inr (Or.inr (Or.inl ⟨pkgs, docPkgs, astPkg, docAstPkg, e3, rfl,
              rfl, ha, hd, by rw [h3], by rw [h3]⟩)))
          · exact Or.inr (Or.inr (Or.inr (Or.inr ⟨pkgs, docPkgs, astPkg, docAstPkg, typesPkg,
              facts, rfl, rfl, ha, hd, by rw [h3], by rw [h3]⟩)))

/-- A run of `toToolchain` ends with an error and the empty bundle, or
without an error and with a complete bundle. -/
theorem toToolchain_result {W : Type} (E : Engines W) (p : BuildPackage)
    (ti : Option TypesInfo) (w : W) :
    (∃ err, (toToolchain E p ti w).1 = ({}, some err)) ∨
    (∃ tc, (toToolchain E p ti w).1 = (tc, none) ∧ tc.Complete ∧
      tc.typesInfo.isSome = ti.isSome) := by
  rcases toToolchain_cases E p ti w with ⟨_, _, he⟩ | ⟨_, _, _, _, he⟩ | ⟨_, _, _, _, _, he⟩ |
    ⟨_, _, _, _, _, _, _, _, _, _, he⟩ | ⟨_, _, _, _, _, _, _, _, _, _, _, he⟩
  · exact Or.inl ⟨_, by rw [he]⟩
  · exact Or.inl ⟨_, by rw [he]⟩
  · exact Or.inl ⟨_, by rw [he]⟩
  · exact Or.inl ⟨_, by rw [he]⟩
  · rw [he]
    refine Or.inr ⟨_, rfl, ⟨rfl, rfl, rfl, rfl⟩, ?_⟩
    cases ti <;> rfl

/-- C8. `ToAst`, `ToDoc`, `ToTypes` and `ToInfo`: with an error every other
returned value is `nil`, and the error is that of the build; without an
error the returned values are fields of the bundle of one successful build,
whose file set, syntax package, doc package and types package are all set,
and `ToInfo` returns the `types.Info` of that bundle, which is set too. -/
theorem C8_accessors_all_or_nothing {W : Type} (E : Engines W) (p : Package) (w : W) :
    ((∀ err, (ToAst E p w).1.2.2 = some err →
        (ToAst E p w).1 = (none, none, some err) ∧
          (toToolchain E p.toBuildPackage none w).1.2 = some err) ∧
      ((ToAst E p w).1.2.2 = none →
        ∃ tc, (toToolchain E p.toBuildPackage none w).1 = (tc, none) ∧ tc.Complete ∧
          (ToAst E p w).1 = (tc.fileSet, tc.astPkg, none))) ∧
    ((∀ err, (ToDoc E p w).1.2 = some err →
        (ToDoc E p w).1 = (none, some err) ∧
          (toToolchain E p.toBuildPackage none w).1.2 = some err) ∧
      ((ToDoc E p w).1.2 = none →
        ∃ tc, (toToolchain E p.toBuildPackage none w).1 = (tc, none) ∧ tc.Complete ∧
          (ToDoc E p w).1 = (tc.docPkg, none))) ∧
    ((∀ err, (ToTypes E p w).1.2 = some err →
        (ToTypes E p w).1 = (none, some err) ∧
          (toToolchain E p.toBuildPackage none w).1.2 = some err) ∧
      ((ToTypes E p w).1.2 = none →
        ∃ tc, (toToolchain E p.toBuildPackage none w).1 = (tc, none) ∧ tc.Complete ∧
          (ToTypes E p w).1 = (tc.typesPkg, none))) ∧
    ((∀ err, (ToInfo E p w).1.2.2 = some err →
        (ToInfo E p w).1 = (none, none, some err) ∧
          (toToolchain E p.toBuildPackage (some typesInfo) w).1.2 = some err) ∧
      ((ToInfo E p w).1.2.2 = none →
        ∃ tc, (toToolchain E p.toBuildPackage (some typesInfo) w).1 = (tc, none) ∧
          tc.Complete ∧ tc.typesInfo.isSome = true ∧
          (ToInfo E p w).1 = (tc.typesInfo, tc.typesPkg, none))) := by
  refine ⟨?_, ?_, ?_, ?_⟩
  · unfold ToAst
    rcases toToolchain_result E p.toBuildPackage none w with ⟨e, he⟩ | ⟨tc, he, hc, _⟩
    · rcases hr : toToolchain E p.toBuildPackage none w with ⟨⟨tc', err'⟩, w1, tr⟩
      rw [hr] at he
      cases he
      refine ⟨?_, ?_⟩
      · intro err h'
        cases h'
        exact ⟨rfl, rfl⟩
      · intro h'
        cases h'
    · rcases hr : toToolchain E p.toBuildPackage none w with ⟨⟨tc', err'⟩, w1, tr⟩
      rw [hr] at he
      cases he
      refine ⟨?_, ?_⟩
      · intro err h'
        cases h'
      · intro _
        exact ⟨tc, rfl, hc, rfl⟩
  · unfold ToDoc
    rcases toToolchain_result E p.toBuildPackage none w with ⟨e, he⟩ | ⟨tc, he, hc, _⟩
    · rcases hr : toToolchain E p.toBuildPackage none w with ⟨⟨tc', err'⟩, w1, tr⟩
      rw [hr] at he
      cases he
      refine ⟨?_, ?_⟩
      · intro err h'
        cases h'
        exact ⟨rfl, rfl⟩
      · intro h'
        cases h'
    · rcases hr : toToolchain E p.toBuildPackage none w with ⟨⟨tc', err'⟩, w1, tr⟩
      rw [hr] at he
      cases he
      refine ⟨?_, ?_⟩
      · intro err h'
        cases h'
      · intro _
        exact ⟨tc, rfl, hc, rfl⟩
  · unfold ToTypes
    rcases toToolchain_result E p.toBuildPackage none w with ⟨e, he⟩ | ⟨tc, he, hc, _⟩
    · rcases hr : toToolchain E p.toBuildPackage none w with ⟨⟨tc', err'⟩, w1, tr⟩
      rw [hr] at he
      cases he
      refine ⟨?_, ?_⟩
      · intro err h'
        cases h'
        exact ⟨rfl, rfl⟩
      · intro h'
        cases h'
    · rcases hr : toToolchain E p.toBuildPackage none w with ⟨⟨tc', err'⟩, w1, tr⟩
      rw [hr] at he
      cases he
      refine ⟨?_, ?_⟩
      · intro err h'
        cases h'
      · intro _
        exact ⟨tc, rfl, hc, rfl⟩
  · unfold ToInfo
    rcases toToolchain_result E p.toBuildPackage (some typesInfo) w with
      ⟨e, he⟩ | ⟨tc, he, hc, hi⟩
    · rcases hr : toToolchain E p.toBuildPackage (some typesInfo) w with
        ⟨⟨tc', err'⟩, w1, tr⟩
      rw [hr] at he
      cases he
      refine ⟨?_, ?_⟩
      · intro err h'
        cases h'
        exact ⟨rfl, rfl⟩
      · intro h'
        cases h'
    · rcases hr : toToolchain E p.toBuildPackage (some typesInfo) w with
        ⟨⟨tc', err'⟩, w1, tr⟩
      rw [hr] at he
      cases he
      refine ⟨?_, ?_⟩
      · intro err h'
        cases h'
      · intro _
        exact ⟨tc, rfl, hc, hi, rfl⟩

theorem C8_accessors_all_or_nothing_witness :
    (ToAst Demo.engines { Demo.fresh with Dir := [] } 0).1 =
        (none, none, some (Error.parse ⟨1⟩)) ∧
      ∃ tc, (toToolchain Demo.engines Demo.fresh.toBuildPackage (some typesInfo) 0).1 =
          (tc, none) ∧
        tc.Complete ∧ tc.typesInfo.isSome = true ∧
        (ToInfo Demo.engines Demo.fresh 0).1 = (tc.typesInfo, tc.typesPkg, none) :=
  ⟨((C8_accessors_all_or_nothing Demo.engines { Demo.fresh with Dir := [] } 0).1.1
      (Error.parse ⟨1⟩) rfl).1,
    (C8_accessors_all_or_nothing Demo.engines Demo.fresh 0).2.2.2.2 rfl⟩

/-- C9. Every run of `toToolchain` is one of five: the first parse fails,
the second parse fails after the first succeeded, the package name is
missing in one of the two parse results after both parses succeeded, the
type check fails after all that succeeded, or no stage fails. In the four
failing runs the error is that of the failing stage (the error of the
parser or of the type checker as it is, the package-not-found error for the
lookup), the bundle is empty, and the stages that ran stop at the failing
one. Hence the package-not-found error is returned exactly when both parses
succeed and one result lacks the name, there is no error exactly when no
stage fails, and the type check runs exactly when the three stages before
it succeeded. -/
theorem C9_first_failure {W : Type} (E : Engines W) (p : BuildPackage)
    (ti : Option TypesInfo) (w : W) :
    ((∃ e, (firstParse E p w).1 = Except.error e ∧
        toToolchain E p ti w =
          (({}, some (Error.parse e)), (firstParse E p w).2.2, [Stage.parse])) ∨
      (∃ pkgs e, (firstParse E p w).1 = Except.ok pkgs ∧
        (secondParse E p w).1 = Except.error e ∧
        toToolchain E p ti w =
          (({}, some (Error.parse e)), (secondParse E p w).2.2,
            [Stage.parse, Stage.docParse])) ∨
      (∃ pkgs docPkgs, (firstParse E p w).1 = Except.ok pkgs ∧
        (secondParse E p w).1 = Except.ok docPkgs ∧
        (pkgs.get? p.Name = none ∨ docPkgs.get? p.Name = none) ∧
        toToolchain E p ti w =
          (({}, some (pkgNotFound p.Name p.Dir)), (secondParse E p w).2.2,
            [Stage.parse, Stage.docParse, Stage.lookup])) ∨
      (∃ pkgs docPkgs astPkg docAstPkg e, (firstParse E p w).1 = Except.ok pkgs ∧
        (secondParse E p w).1 = Except.ok docPkgs ∧
        pkgs.get? p.Name = some astPkg ∧ docPkgs.get? p.Name = some docAstPkg ∧
        (typeCheck E p w astPkg).1 = Except.error e ∧
        toToolchain E p ti w =
          (({}, some (Error.check e)), (typeCheck E p w astPkg).2,
            [Stage.parse, Stage.docParse, Stage.lookup, Stage.typeCheck])) ∨
      (∃ pkgs docPkgs astPkg docAstPkg typesPkg facts,
        (firstParse E p w).1 = Except.ok pkgs ∧
        (secondParse E p w).1 = Except.ok docPkgs ∧
        pkgs.get? p.Name = some astPkg ∧ docPkgs.get? p.Name = some docAstPkg ∧
        (typeCheck E p w astPkg).1 = Except.ok (typesPkg, facts) ∧
        toToolchain E p ti w =
          (({ fileSet := some (firstParse E p w).2.1, astPkg := some astPkg,
              docPkg := some (E.docNew docAstPkg p.Dir), typesPkg := some typesPkg,
              typesInfo := ti.map fun _ => facts }, none), (typeCheck E p w astPkg).2,
            [Stage.parse, Stage.docParse, Stage.lookup, Stage.typeCheck]))) ∧
    ((toToolchain E p ti w).1.2 = some (pkgNotFound p.Name p.Dir) ↔
      ∃ pkgs docPkgs, (firstParse E p w).1 = Except.ok pkgs ∧
        (secondParse E p w).1 = Except.ok docPkgs ∧
        (pkgs.get? p.Name = none ∨ docPkgs.get? p.Name = none)) ∧
    ((toToolchain E p ti w).1.2 = none ↔
      ∃ pkgs docPkgs astPkg docAstPkg r, (firstParse E p w).1 = Except.ok pkgs ∧
        (secondParse E p w).1 = Except.ok docPkgs ∧
        pkgs.get? p.Name = some astPkg ∧ docPkgs.get? p.Name = some docAstPkg ∧
        (typeCheck E p w astPkg).1 = Except.ok r) ∧
    (Stage.typeCheck ∈ (toToolchain E p ti w).2.2 ↔
      ∃ pkgs docPkgs astPkg docAstPkg, (firstParse E p w).1 = Except.ok pkgs ∧
        (secondParse E p w).1 = Except.ok docPkgs ∧
        pkgs.get? p.Name = some astPkg ∧ docPkgs.get? p.Name = some docAstPkg) := by
  refine ⟨toToolchain_cases E p ti w, ?_⟩
  rcases toToolchain_cases E p ti w with ⟨e, h1, he⟩ | ⟨pkgs, e, h1, h2, he⟩ |
    ⟨pkgs, docPkgs, h1, h2, h3, he⟩ | ⟨pkgs, docPkgs, astPkg, docAstPkg, e, h1, h2, h3, h4, h5, he⟩ |
    ⟨pkgs, docPkgs, astPkg, docAstPkg, typesPkg, facts, h1, h2, h3, h4, h5, he⟩
  · rw [he]
    refine ⟨⟨fun c => ?_, ?_⟩, ⟨fun c => ?_, ?_⟩, ⟨fun c => ?_, ?_⟩⟩
    · cases c
    · rintro ⟨a, _, ha, _⟩
      rw [h1] at ha
      cases ha
    · cases c
    · rintro ⟨a, _, _, _, _, ha, _⟩
      rw [h1] at ha
      cases ha
    · simp at c
    · rintro ⟨a, _, _, _, ha, _⟩
      rw [h1] at ha
      cases ha
  · rw [he]
    refine ⟨⟨fun c => ?_, ?_⟩, ⟨fun c => ?_, ?_⟩, ⟨fun c => ?_, ?_⟩⟩
    · cases c
    · rintro ⟨_, b, _, hb, _⟩
      rw [h2] at hb
      cases hb
    · cases c
    · rintro ⟨_, b, _, _, _, _, hb, _⟩
      rw [h2] at hb
      cases hb
    · simp at c
    · rintro ⟨_, b, _, _, _, hb, _⟩
      rw [h2] at hb
      cases hb
  · rw [he]
    have hno : ∀ a b : GoMap AstPackage, ∀ x y : AstPackage,
        (firstParse E p w).1 = Except.ok a → (secondParse E p w).1 = Except.ok b →
        a.get? p.Name = some x → b.get? p.Name = some y → False := by
      intro a b x y ha hb hx hy
      rw [h1] at ha
      rw [h2] at hb
      cases ha
      cases hb
      rcases h3 with h3 | h3
      · rw [h3] at hx
        cases hx
      · rw [h3] at hy
        cases hy
    refine ⟨⟨fun _ => ⟨pkgs, docPkgs, h1, h2, h3⟩, fun _ => rfl⟩, ⟨fun c => ?_, ?_⟩,
      ⟨fun c => ?_, ?_⟩⟩
    · cases c
    · rintro ⟨a, b, x, y, _, ha, hb, hx, hy, _⟩
      exact (hno a b x y ha hb hx hy).elim
    · simp at c
    · rintro ⟨a, b, x, y, ha, hb, hx, hy⟩
      exact (hno a b x y ha hb hx hy).elim
  · rw [he]
    refine ⟨⟨fun c => ?_, ?_⟩, ⟨fun c => ?_, ?_⟩,
      ⟨fun _ => ⟨pkgs, docPkgs, astPkg, docAstPkg, h1, h2, h3, h4⟩, fun _ => by simp⟩⟩
    · simp [pkgNotFound] at c
    · rintro ⟨a, b, ha, hb, hx⟩
      rw [h1] at ha
      rw [h2] at hb
      cases ha
      cases hb
      rcases hx with hx | hx
      · rw [h3] at hx
        cases hx
      · rw [h4] at hx
        cases hx
    · cases c
    · rintro ⟨a, b, x, y, r, ha, hb, hx, hy, hr⟩
      rw [h1] at ha
      cases ha
      rw [h3] at hx
      cases hx
      rw [h5] at hr
      cases hr
  · rw [he]
    refine ⟨⟨fun c => ?_, ?_⟩,
      ⟨fun _ => ⟨pkgs, docPkgs, astPkg, docAstPkg, (typesPkg, facts), h1, h2, h3, h4, h5⟩,
        fun _ => rfl⟩,
      ⟨fun _ => ⟨pkgs, docPkgs, astPkg, docAstPkg, h1, h2, h3, h4⟩, fun _ => by simp⟩⟩
    · cases c
    · rintro ⟨a, b, ha, hb, hx⟩
      rw [h1] at ha
      rw [h2] at hb
      cases ha
      cases hb
      rcases hx with hx | hx
      · rw [h3] at hx
        cases hx
      · rw [h4] at hx
        cases hx

theorem C9_first_failure_witness :
    (toToolchain Demo.engines { Demo.fresh.toBuildPackage with Name := str "other" } none 0).1.2 =
        some (pkgNotFound (str "other") (str "testdata")) ∧
      (toToolchain Demo.engines { Demo.fresh.toBuildPackage with Name := str "other" }
        none 0).2.2 = [Stage.parse, Stage.docParse, Stage.lookup] ∧
      (toToolchain Demo.engines { Demo.fresh.toBuildPackage with Dir := [] } none 0).1.2 =
        some (Error.parse ⟨1⟩) ∧
      (toToolchain Demo.engines Demo.fresh.toBuildPackage none 0).1.2 = none :=
  ⟨(C9_first_failure Demo.engines { Demo.fresh.toBuildPackage with Name := str "other" }
      none 0).2.1.2 ⟨_, _, rfl, rfl, Or.inl rfl⟩,
    rfl, rfl,
    (C9_first_failure Demo.engines Demo.fresh.toBuildPackage none 0).2.2.1.2
      ⟨_, _, Demo.astPkg, Demo.astPkg, _, rfl, rfl, rfl, rfl, rfl⟩⟩

/-! ## The one-shot initialisation -/

theorem init_sets_once {W : Type} (E : Engines W) (p : Package) (w : W) :
    (init E p w).pkg.once = true := by
  unfold init
  by_cases h : p.once = true
  · rw [if_pos h]
    exact h
  · rw [if_neg h]

theorem init_trace {W : Type} (E : Engines W) (p : Package) (w : W) :
    (init E p w).trace =
      if p.once = true then [] else (toToolchain E p.toBuildPackage (some typesInfo) w).2.2 := by
  unfold init
  by_cases h : p.once = true
  · rw [if_pos h, if_pos h]
  · rw [if_neg h, if_neg h]

theorem methodSet_state {W : Type} (E : Engines W) (p : Package) (w : W) (name : GoString) :
    (Package.MethodSet E p w name).pkg = (init E p w).pkg ∧
      (Package.MethodSet E p w name).world = (init E p w).world ∧
      (Package.MethodSet E p w name).trace = (init E p w).trace := by
  unfold Package.MethodSet
  dsimp only
  cases scopeOf E (init E p w).pkg.tc <;> exact ⟨rfl, rfl, rfl⟩

theorem methodsRound_frame {W : Type} (E : Engines W) (acc : Res W (GoMap MethodSet))
    (h : acc.pkg.once = true) (name : GoString) :
    (methodsRound E acc name).pkg = acc.pkg ∧ (methodsRound E acc name).world = acc.world ∧
      (methodsRound E acc name).trace = acc.trace := by
  have hs := methodSet_state E acc.pkg acc.world name
  rw [init_of_once E acc.pkg acc.world h] at hs
  obtain ⟨h1, h2, h3⟩ := hs
  unfold methodsRound
  cases acc.val with
  | none => exact ⟨rfl, rfl, rfl⟩
  | some methods =>
    rcases hv : (Package.MethodSet E acc.pkg acc.world name).val with _ | ⟨ms, _ | err⟩
    · simp only [hv, h1, h2, h3, List.append_nil, and_self]
    · by_cases hlen : ms.Len > 0
      · simp only [hv, hlen, if_true, h1, h2, h3, List.append_nil, and_self]
      · simp only [hv, hlen, if_false, h1, h2, h3, List.append_nil, and_self]
    · simp only [hv, h1, h2, h3, List.append_nil, and_self]

theorem methods_fold_frame {W : Type} (E : Engines W) (L : List GoString)
    (acc : Res W (GoMap MethodSet)) (h : acc.pkg.once = true) :
    (L.foldl (methodsRound E) acc).pkg = acc.pkg ∧
      (L.foldl (methodsRound E) acc).world = acc.world ∧
      (L.foldl (methodsRound E) acc).trace = acc.trace := by
  induction L generalizing acc with
  | nil => exact ⟨rfl, rfl, rfl⟩
  | cons n L ih =>
    obtain ⟨h1, h2, h3⟩ := methodsRound_frame E acc h n
    rw [List.foldl_cons]
    obtain ⟨g1, g2, g3⟩ := ih (methodsRound E acc n) (by rw [h1]; exact h)
    exact ⟨g1.trans h1, g2.trans h2, g3.trans h3⟩

/-- Every call that forces the initialisation changes the state as `init`
alone does. -/
theorem run_eq_init {W : Type} (E : Engines W) (p : Package) (w : W) (c : Call) :
    c.run E p w = ((init E p w).pkg, (init E p w).world, (init E p w).trace) := by
  cases c with
  | init => rfl
  | Synopsis =>
    unfold Call.run Package.Synopsis
    dsimp only
    cases (init E p w).pkg.tc with
    | none => rfl
    | some tc =>
      dsimp only
      cases tc.docPkg <;> rfl
  | String => rfl
  | Docs => rfl
  | Functions =>
    unfold Call.run Package.Functions
    dsimp only
    cases scopeOf E (init E p w).pkg.tc <;> rfl
  | Methods =>
    unfold Call.run Package.Methods
    dsimp only
    cases scopeOf E (init E p w).pkg.tc with
    | none => rfl
    | some scope =>
      obtain ⟨h1, h2, h3⟩ := methods_fold_frame E scope.Names
        ⟨some GoMap.empty, (init E p w).pkg, (init E p w).world, (init E p w).trace⟩
        (init_sets_once E p w)
      simp only [h1, h2, h3]
  | MethodSet name =>
    obtain ⟨h1, h2, h3⟩ := methodSet_state E p w name
    unfold Call.run
    simp only [h1, h2, h3]
  | FilesNames =>
    unfold Call.run Files.Names
    dsimp only
    cases (init E p w).pkg.tc with
    | none => rfl
    | some tc =>
      dsimp only
      cases tc.docPkg <;> rfl
  | FilesPaths =>
    unfold Call.run Files.Paths
    dsimp only
    cases (init E p w).pkg.tc with
    | none => rfl
    | some tc =>
      dsimp only
      cases tc.docPkg <;> rfl

/-- C10. For two calls `c1`, `c2` that force the initialisation, made one
after the other on a package, with the fields of `build.Package`
(`Dir`, `Name`, ...) set to any values `edit` in between: after `c1` the once has
fired, `c1` has run the builder once if the once had not fired before and
not at all otherwise, and `c2` runs no stage of the builder and leaves the
world and the package, so the cached `p.tc`, as they are. -/
theorem C10_built_once {W : Type} (E : Engines W) (p : Package) (w : W) (c1 c2 : Call)
    (edit : BuildPackage) :
    (c1.run E p w).1.once = true ∧
    (c1.run E p w).2.2 =
      (if p.once = true then []
        else (toToolchain E p.toBuildPackage (some typesInfo) w).2.2) ∧
    c2.run E ((c1.run E p w).1.withBuild edit) (c1.run E p w).2.1 =
      ((c1.run E p w).1.withBuild edit, (c1.run E p w).2.1, []) ∧
    (c2.run E ((c1.run E p w).1.withBuild edit) (c1.run E p w).2.1).1.tc =
      (c1.run E p w).1.tc := by
  have h1 : (c1.run E p w).1.once = true := by
    rw [run_eq_init]
    exact init_sets_once E p w
  have h1' : ((c1.run E p w).1.withBuild edit).once = true := h1
  have h2 : c2.run E ((c1.run E p w).1.withBuild edit) (c1.run E p w).2.1 =
      ((c1.run E p w).1.withBuild edit, (c1.run E p w).2.1, []) := by
    rw [run_eq_init E _ _ c2, init_of_once E _ _ h1']
  refine ⟨h1, ?_, h2, ?_⟩
  · rw [run_eq_init]
    exact init_trace E p w
  · rw [h2]
    rfl

theorem C10_built_once_witness :
    (Call.run Call.Synopsis Demo.engines Demo.fresh 0).1.tc.isSome = true ∧
      (Call.run Call.Synopsis Demo.engines Demo.fresh 0).2.2 =
        [Stage.parse, Stage.docParse, Stage.lookup, Stage.typeCheck] ∧
      (Call.run Call.Methods Demo.engines
        ((Call.run Call.Synopsis Demo.engines Demo.fresh 0).1.withBuild
          { Dir := [], Name := str "other" })
        (Call.run Call.Synopsis Demo.engines Demo.fresh 0).2.1).2.2 = [] ∧
      (Call.run Call.Methods Demo.engines
        ((Call.run Call.Synopsis Demo.engines Demo.fresh 0).1.withBuild
          { Dir := [], Name := str "other" })
        (Call.run Call.Synopsis Demo.engines Demo.fresh 0).2.1).1.tc =
        (Call.run Call.Synopsis Demo.engines Demo.fresh 0).1.tc := by
  have h := C10_built_once Demo.engines Demo.fresh 0 Call.Synopsis Call.Methods
    { Dir := [], Name := str "other" }
  exact ⟨rfl, h.2.1, congrArg (fun r => r.2.2) h.2.2.1, h.2.2.2⟩

/-! ## The one-shot initialisation after a failed build -/

theorem init_fresh {W : Type} (E : Engines W) (p : Package) (w : W) (h : p.once = false) :
    init E p w =
      ⟨some (toToolchain E p.toBuildPackage (some typesInfo) w).1.2,
        { p with once := true, tc := some (toToolchain E p.toBuildPackage (some typesInfo) w).1.1 },
        (toToolchain E p.toBuildPackage (some typesInfo) w).2.1,
        (toToolchain E p.toBuildPackage (some typesInfo) w).2.2⟩ := by
  unfold init
  rw [if_neg (by simp [h])]

theorem toToolchain_err_empty {W : Type} (E : Engines W) (p : BuildPackage)
    (ti : Option TypesInfo) (w : W) (err : Error) (h : (toToolchain E p ti w).1.2 = some err) :
    (toToolchain E p ti w).1.1 = {} := by
  rcases toToolchain_result E p ti w with ⟨e, he⟩ | ⟨tc, he, _⟩
  · rw [he]
  · rw [he] at h
    cases h

/-- The first `init` after a failed build: the error is returned and the
cached toolchain is the empty one. -/
theorem init_failed {W : Type} (E : Engines W) (p : Package) (w : W) (err : Error)
    (hfresh : p.once = false)
    (hfail : (toToolchain E p.toBuildPackage (some typesInfo) w).1.2 = some err) :
    (init E p w).val = some (some err) ∧ (init E p w).pkg.tc = some {} := by
  constructor
  · rw [init_fresh E p w hfresh, hfail]
  · rw [init_fresh E p w hfresh]
    exact congrArg some (toToolchain_err_empty E _ _ w err hfail)

/-- C11, what the code does. When the first build of a package fails, the first
call of `init` returns the build error, the once has fired and `p.tc` is the
empty toolchain; the build is never retried and the error is not recorded:
a later call of `init` on that package, in any world, runs no stage of the
builder, leaves the package and the world as they are and returns `nil`. -/
theorem C11_error_not_replayed {W : Type} (E : Engines W) (p : Package) (w w' : W)
    (err : Error) (hfresh : p.once = false)
    (hfail : (toToolchain E p.toBuildPackage (some typesInfo) w).1.2 = some err) :
    (init E p w).val = some (some err) ∧
    (init E p w).pkg.once = true ∧
    (init E p w).pkg.tc = some {} ∧
    init E (init E p w).pkg w' = ⟨some none, (init E p w).pkg, w', []⟩ := by
  exact ⟨(init_failed E p w err hfresh hfail).1, init_sets_once E p w,
    (init_failed E p w err hfresh hfail).2, init_of_once E _ w' (init_sets_once E p w)⟩

theorem C11_error_not_replayed_witness :
    (init Demo.engines { Demo.fresh with Dir := [] } 0).val = some (some (Error.parse ⟨1⟩)) ∧
      (init Demo.engines { Demo.fresh with Dir := [] } 0).pkg.tc = some {} ∧
      (init Demo.engines (init Demo.engines { Demo.fresh with Dir := [] } 0).pkg 1).val =
        some none := by
  have h := C11_error_not_replayed Demo.engines { Demo.fresh with Dir := [] } 0 1
    (Error.parse ⟨1⟩) rfl rfl
  exact ⟨h.1, h.2.2.1, by rw [h.2.2.2]⟩

/-! ## `MethodSet` after a failed build -/

theorem build_error_cases {W : Type} (E : Engines W) (p : BuildPackage)
    (ti : Option TypesInfo) (w : W) (err : Error) (h : (toToolchain E p ti w).1.2 = some err) :
    (∃ e, err = Error.parse e) ∨ (∃ e, err = Error.check e) ∨ err = pkgNotFound p.Name p.Dir := by
  rcases toToolchain_cases E p ti w with ⟨e, _, he⟩ | ⟨_, e, _, _, he⟩ | ⟨_, _, _, _, _, he⟩ |
    ⟨_, _, _, _, e, _, _, _, _, _, he⟩ | ⟨_, _, _, _, _, _, _, _, _, _, _, he⟩
  · rw [he] at h
    exact Or.inl ⟨e, (Option.some.inj h).symm⟩
  · rw [he] at h
    exact Or.inl ⟨e, (Option.some.inj h).symm⟩
  · rw [he] at h
    exact Or.inr (Or.inr (Option.some.inj h).symm)
  · rw [he] at h
    exact Or.inr (Or.inl ⟨e, (Option.some.inj h).symm⟩)
  · rw [he] at h
    cases h

theorem methodSetIn_error {W : Type} (E : Engines W) (scope : Scope) (name : GoString) :
    (methodSetIn E scope name).2 = none ∨
      (methodSetIn E scope name).2 = some (Error.errorf (str "named type was not found")) ∨
      (methodSetIn E scope name).2 = some (Error.errorf (str "named type was not exported")) := by
  rcases methodSetIn_cases E scope name with ⟨_, he⟩ | ⟨_, _, _, he⟩ | ⟨_, _, _, he⟩
  · exact Or.inr (Or.inl (by rw [he]))
  · exact Or.inr (Or.inr (by rw [he]))
  · exact Or.inl (by rw [he])

theorem pkgNotFound_ne (name dir : GoString) :
    pkgNotFound name dir ≠ Error.errorf (str "named type was not found") ∧
      pkgNotFound name dir ≠ Error.errorf (str "named type was not exported") := by
  have hhead : ∀ m : GoString, pkgNotFound name dir = Error.errorf m → m.head? = some 117 := by
    intro m hm
    cases hm
    rfl
  constructor
  · intro h
    have := hhead _ h
    revert this
    decide
  · intro h
    have := hhead _ h
    revert this
    decide

/-- C12, what the code does. On a package whose first build fails with the
error `err`, `MethodSet(name)` drops the result of `init` and goes on to
`p.tc.typesPkg.Scope()` with `typesPkg` being `nil`: it faults when `Scope`
faults on a `nil` package, and otherwise looks `name` up in the scope that
`Scope` gives for a `nil` package. In no case does it return the empty
method set together with `err`. -/
theorem C12_build_error_dropped {W : Type} (E : Engines W) (p : Package) (w : W)
    (name : GoString) (err : Error) (hfresh : p.once = false)
    (hfail : (toToolchain E p.toBuildPackage (some typesInfo) w).1.2 = some err) :
    (init E p w).val = some (some err) ∧
    (E.nilPkgScope = none → (Package.MethodSet E p w name).val = none) ∧
    (∀ scope, E.nilPkgScope = some scope →
      (Package.MethodSet E p w name).val = some (methodSetIn E scope name)) ∧
    (Package.MethodSet E p w name).val ≠ some (MethodSet.zero, some err) := by
  have htc : (init E p w).pkg.tc = some {} :=
    (init_failed E p w err hfresh hfail).2
  have hval : (Package.MethodSet E p w name).val =
      match E.nilPkgScope with
      | none => none
      | some scope => some (methodSetIn E scope name) := by
    unfold Package.MethodSet
    dsimp only
    rw [htc]
    unfold scopeOf
    dsimp only
    cases E.nilPkgScope <;> rfl
  refine ⟨(init_failed E p w err hfresh hfail).1, ?_, ?_, ?_⟩
  · intro hn
    rw [hval, hn]
  · intro scope hs
    rw [hval, hs]
  · rw [hval]
    cases hs : E.nilPkgScope with
    | none =>
      intro c
      cases c
    | some scope =>
      intro c
      have h2 : (methodSetIn E scope name).2 = some err :=
        congrArg Prod.snd (Option.some.inj c)
      rcases build_error_cases E _ _ w err hfail with ⟨e, rfl⟩ | ⟨e, rfl⟩ | rfl
      · rcases methodSetIn_error E scope name with h3 | h3 | h3 <;>
          · rw [h3] at h2
            cases h2
      · rcases methodSetIn_error E scope name with h3 | h3 | h3 <;>
          · rw [h3] at h2
            cases h2
      · rcases methodSetIn_error E scope name with h3 | h3 | h3
        · rw [h3] at h2
          cases h2
        · rw [h3] at h2
          exact (pkgNotFound_ne _ _).1 (Option.some.inj h2).symm
        · rw [h3] at h2
          exact (pkgNotFound_ne _ _).2 (Option.some.inj h2).symm

theorem C12_build_error_dropped_witness :
    (init Demo.engines { Demo.fresh with Dir := [] } 0).val = some (some (Error.parse ⟨1⟩)) ∧
      (Package.MethodSet Demo.engines { Demo.fresh with Dir := [] } 0
        (str "PublicStruct")).val = none := by
  have h := C12_build_error_dropped Demo.engines { Demo.fresh with Dir := [] } 0
    (str "PublicStruct") (Error.parse ⟨1⟩) rfl rfl
  exact ⟨h.1, h.2.1 rfl⟩

/-! ## The copy loops -/

theorem copyEach_upto {α β : Type} (zero : β) (f : α → β) (s : List α) (k : Nat)
    (hk : k ≤ s.length) :
    (List.range k).foldl
      (fun out i =>
        match s.get? i with
        | some x => out.set i (f x)
        | none => out)
      (List.replicate s.length zero) =
    (s.take k).map f ++ List.replicate (s.length - k) zero := by
  induction k with
  | zero => simp
  | succ k ih =>
    have hlt : k < s.length := hk
    rw [List.range_succ, List.foldl_append, ih (Nat.le_of_lt hlt)]
    have hget : s.get? k = some (s.get ⟨k, hlt⟩) := List.get?_eq_get hlt
    simp only [List.foldl_cons, List.foldl_nil, hget]
    have hlen : ((s.take k).map f).length = k := by
      rw [List.length_map, List.length_take]
      omega
    have hrep : List.replicate (s.length - k) zero =
        zero :: List.replicate (s.length - (k + 1)) zero := by
      have : s.length - k = (s.length - (k + 1)) + 1 := by omega
      rw [this, List.replicate_succ]
    have htake : (s.take (k + 1)).map f = (s.take k).map f ++ [f (s.get ⟨k, hlt⟩)] := by
      rw [List.take_succ, List.map_append]
      simp [List.getElem?_eq_getElem hlt]
    rw [List.set_append_right _ _ (by rw [hlen]), hlen, Nat.sub_self, hrep, List.set_cons_zero,
      htake, List.append_assoc]
    rfl

/-- The copy loop gives the list of the images, in the order of `s`. -/
theorem copyEach_eq_map {α β : Type} (zero : β) (f : α → β) (s : List α) :
    copyEach zero f s = s.map f := by
  unfold copyEach
  rw [copyEach_upto zero f s s.length (Nat.le_refl _)]
  simp

theorem copyEach_id {α : Type} (zero : α) (s : List α) : copyEach zero (fun x => x) s = s := by
  rw [copyEach_eq_map]
  simp

/-! ## Maps filled in a loop -/

theorem GoMap.eq_of_entries {β : Type} (a b : GoMap β) (h : a.entries = b.entries) : a = b := by
  cases a
  cases b
  cases h
  rfl

theorem GoMap.entries_set_of_not_mem {β : Type} (m : GoMap β) (k : GoString) (v : β)
    (h : k ∉ m.keys) : (m.set k v).entries = m.entries ++ [(k, v)] := by
  unfold GoMap.set
  dsimp only
  rw [List.filter_eq_self.2]
  intro e he
  have : e.1 ≠ k := fun c => h (c ▸ List.mem_map_of_mem Prod.fst he)
  simpa using this

theorem GoMap.get?_of_mem {β : Type} (m : GoMap β) (k : GoString) (v : β)
    (h : (k, v) ∈ m.entries) : m.get? k = some v := by
  unfold GoMap.get?
  have hn := m.nodup
  revert hn h
  generalize m.entries = l
  intro h hn
  induction l with
  | nil => cases h
  | cons e es ih =>
    rw [List.map_cons, List.nodup_cons] at hn
    rcases List.mem_cons.1 h with rfl | h'
    · simp
    · have hne : ¬ e.1 = k := fun c => hn.1 (c ▸ List.mem_map_of_mem Prod.fst h')
      rw [List.find?_cons_of_neg _ (by simpa using hne)]
      exact ih h' hn.2

theorem mem_keys_foldl_set {α β : Type} (key : α → GoString) (val : α → β) (l : List α)
    (acc : GoMap β) (k : GoString) :
    k ∈ (l.foldl (fun out a => out.set (key a) (val a)) acc).keys ↔
      k ∈ acc.keys ∨ ∃ a ∈ l, key a = k := by
  induction l generalizing acc with
  | nil => simp
  | cons a l ih =>
    rw [List.foldl_cons, ih, GoMap.mem_keys_set]
    constructor
    · rintro ((h | h) | ⟨b, hb, h⟩)
      · exact Or.inr ⟨a, List.mem_cons_self a l, h.symm⟩
      · exact Or.inl h
      · exact Or.inr ⟨b, List.mem_cons_of_mem a hb, h⟩
    · rintro (h | ⟨b, hb, h⟩)
      · exact Or.inl (Or.inr h)
      · rcases List.mem_cons.1 hb with rfl | hb'
        · exact Or.inl (Or.inl h.symm)
        · exact Or.inr ⟨b, hb', h⟩

theorem entries_foldl_set {α β : Type} (key : α → GoString) (val : α → β) (l : List α)
    (acc : GoMap β) (hn : (l.map key).Nodup) (hd : ∀ a ∈ l, key a ∉ acc.keys) :
    (l.foldl (fun out a => out.set (key a) (val a)) acc).entries =
      acc.entries ++ l.map fun a => (key a, val a) := by
  induction l generalizing acc with
  | nil => simp
  | cons a l ih =>
    rw [List.map_cons, List.nodup_cons] at hn
    have ha : key a ∉ acc.keys := hd a (List.mem_cons_self a l)
    rw [List.foldl_cons, ih (acc.set (key a) (val a)) hn.2, GoMap.entries_set_of_not_mem _ _ _ ha]
    · simp
    · intro b hb hmem
      rcases (GoMap.mem_keys_set acc (key a) (val a) (key b)).1 hmem with h | h
      · exact hn.1 (h ▸ List.mem_map_of_mem key hb)
      · exact hd b (List.mem_cons_of_mem a hb) h

theorem docPkgOf_initialised (p : Package) (tc : Toolchain) (dp : DocPackage)
    (h : Initialised p tc) (hdp : tc.docPkg = some dp) : docPkgOf p = some dp := by
  unfold docPkgOf
  rw [h.2.1]
  exact hdp

/-- C13, what the code does. On an initialised package `Docs.Methods()`
returns a map whose keys are exactly the names of the types of
`Docs.Types()`, and which maps the name of each type (the names being
distinct) to the list `Funcs` of that type, the functions associated with
it, whatever its list `Methods` holds. -/
theorem C13_methods_from_funcs (p : Package) (tc : Toolchain) (dp : DocPackage)
    (h : Initialised p tc) (hdp : tc.docPkg = some dp) :
    Docs.Types p = some dp.Types ∧
    ∃ methods, Docs.Methods p = some methods ∧
      (∀ k, k ∈ methods.keys ↔ ∃ t ∈ dp.Types, t.Name = k) ∧
      ((dp.Types.map DocType.Name).Nodup → ∀ t ∈ dp.Types, methods.get? t.Name = some t.Funcs) := by
  have hT : Docs.Types p = some dp.Types := by
    unfold Docs.Types
    rw [docPkgOf_initialised p tc dp h hdp]
    simp only [copyEach_id]
  have hM : Docs.Methods p =
      some (dp.Types.foldl (fun out typ => out.set typ.Name typ.Funcs) GoMap.empty) := by
    unfold Docs.Methods
    rw [hT]
    simp only [copyEach_id]
  refine ⟨hT, _, hM, ?_, ?_⟩
  · intro k
    rw [mem_keys_foldl_set DocType.Name DocType.Funcs]
    simp [GoMap.keys_empty]
  · intro hn t ht
    apply GoMap.get?_of_mem
    rw [entries_foldl_set DocType.Name DocType.Funcs dp.Types GoMap.empty hn
      (fun a _ => by simp [GoMap.keys_empty])]
    exact List.mem_append_right _ (List.mem_map_of_mem (fun a => (a.Name, a.Funcs)) ht)

theorem C13_methods_from_funcs_witness :
    Initialised Demo.pkg Demo.tc ∧ Demo.tc.docPkg = some Demo.docPkg ∧
      ∃ methods, Docs.Methods Demo.pkg = some methods ∧
        methods.get? (str "PublicStruct") = some [Demo.newPublicStruct] ∧
        Demo.docPublicStruct.Methods = [Demo.docMethodOne, Demo.docMethodOneP] ∧
        [Demo.newPublicStruct] ≠ Demo.docPublicStruct.Methods := by
  obtain ⟨_, methods, hm, _, hget⟩ :=
    C13_methods_from_funcs Demo.pkg Demo.tc Demo.docPkg Demo.initialised rfl
  exact ⟨Demo.initialised, rfl, methods, hm,
    hget (by decide) Demo.docPublicStruct (by decide), rfl, by decide⟩

/-! ## The documentation view -/

theorem notes_copy (m : GoMap (List DocNote)) :
    m.entries.foldl (fun out e => out.set e.1 (copyEach {} (fun n => n) e.2)) GoMap.empty = m := by
  apply GoMap.eq_of_entries
  simp only [copyEach_id]
  rw [entries_foldl_set Prod.fst Prod.snd m.entries GoMap.empty m.nodup
    (fun a _ => by simp [GoMap.keys_empty])]
  simp [GoMap.empty]

/-- C15. On an initialised package the projections `Consts`, `Vars`,
`Funcs`, `Types` and `Notes` return without a fault, and each returns a
copy equal to the list, respectively the map, of the doc package: the same
length, the same element at every index (so a block keeps its `Names`, a
note its `Body`), and for `Notes` the same tags, each with its notes in
order. The projections return no new state of the package, so a second call
gives the same result. -/
theorem C15_projections_copy (p : Package) (tc : Toolchain) (dp : DocPackage)
    (h : Initialised p tc) (hdp : tc.docPkg = some dp) :
    ∃ consts vars funcs types notes,
      Docs.Consts p = some consts ∧ Docs.Vars p = some vars ∧ Docs.Funcs p = some funcs ∧
      Docs.Types p = some types ∧ Docs.Notes p = some notes ∧
      (consts.length = dp.Consts.length ∧ ∀ i, consts.get? i = dp.Consts.get? i) ∧
      (vars.length = dp.Vars.length ∧ ∀ i, vars.get? i = dp.Vars.get? i) ∧
      (funcs.length = dp.Funcs.length ∧ ∀ i, funcs.get? i = dp.Funcs.get? i) ∧
      (types.length = dp.Types.length ∧ ∀ i, types.get? i = dp.Types.get? i) ∧
      (∀ k, k ∈ notes.keys ↔ k ∈ dp.Notes.keys) ∧
      (∀ k, notes.get? k = dp.Notes.get? k) ∧
      consts = dp.Consts ∧ vars = dp.Vars ∧ funcs = dp.Funcs ∧ types = dp.Types ∧
      notes = dp.Notes := by
  have hd := docPkgOf_initialised p tc dp h hdp
  have hC : Docs.Consts p = some dp.Consts := by
    unfold Docs.Consts Docs.indirectValues
    rw [hd]
    simp only [copyEach_id]
  have hV : Docs.Vars p = some dp.Vars := by
    unfold Docs.Vars Docs.indirectValues
    rw [hd]
    simp only [copyEach_id]
  have hF : Docs.Funcs p = some dp.Funcs := by
    unfold Docs.Funcs
    rw [hd]
    simp only [copyEach_id]
  have hT : Docs.Types p = some dp.Types := by
    unfold Docs.Types
    rw [hd]
    simp only [copyEach_id]
  have hN : Docs.Notes p = some dp.Notes := by
    unfold Docs.Notes
    rw [hd]
    simp only [notes_copy]
  exact ⟨_, _, _, _, _, hC, hV, hF, hT, hN, ⟨rfl, fun _ => rfl⟩, ⟨rfl, fun _ => rfl⟩,
    ⟨rfl, fun _ => rfl⟩, ⟨rfl, fun _ => rfl⟩, fun _ => Iff.rfl, fun _ => rfl, rfl, rfl, rfl,
    rfl, rfl⟩

theorem C15_projections_copy_witness :
    Initialised Demo.pkg Demo.tc ∧ Demo.tc.docPkg = some Demo.docPkg ∧
      Docs.Consts Demo.pkg = some [Demo.constBlock] ∧
      Demo.constBlock.Names.length = 3 ∧
      (Docs.Notes Demo.pkg).map (fun notes => notes.get? (str "HELLO")) =
        some (some Demo.helloNotes) := by
  obtain ⟨consts, _, _, _, notes, hC, _, _, _, hN, _, _, _, _, _, hget, hc, _⟩ :=
    C15_projections_copy Demo.pkg Demo.tc Demo.docPkg Demo.initialised rfl
  refine ⟨Demo.initialised, rfl, ?_, rfl, ?_⟩
  · rw [hC, hc]
    rfl
  · rw [hN, Option.map_some', hget]
    rfl

/-! ## The file lists -/

theorem sourceNames_eq (p : Package) :
    sourceNames p =
      p.GoFiles ++ p.CgoFiles ++ p.CXXFiles ++ p.MFiles ++ p.SFiles ++ p.SwigFiles := by
  simp [sourceNames]

theorem testNames_eq (p : Package) : testNames p = p.TestGoFiles ++ p.XTestGoFiles := by
  simp [testNames]

/-- The paths of a list of names: joined with the directory, then sorted. -/
theorem sorted_paths (join : GoString → GoString) (names : List GoString) :
    (sortStrings (copyEach [] join names)).Pairwise strLe ∧
      (sortStrings (copyEach [] join names)).Perm (names.map join) ∧
      (sortStrings (copyEach [] join names)).length = names.length ∧
      (∀ x, x ∈ sortStrings (copyEach [] join names) ↔ ∃ n ∈ names, join n = x) := by
  rw [copyEach_eq_map]
  refine ⟨sortStrings_sorted _, sortStrings_perm _, ?_, ?_⟩
  · rw [(sortStrings_perm _).length_eq, List.length_map]
  · intro x
    rw [mem_sortStrings, List.mem_map]

/-- C16. `SourcePaths()` is sorted, it is a rearrangement of the list of
`filepath.Join(Dir, name)` for `name` in `GoFiles`, `CgoFiles`, `CXXFiles`,
`MFiles`, `SFiles` and `SwigFiles`, with as many entries as these lists have
names, so each of its entries is the path of a source name (and, `Join` on
`Dir` being one-to-one, the path of a test name is in it only if the name is
a source name too). `TestPaths()` is the same for `TestGoFiles` and
`XTestGoFiles`. Both depend on the fields of `build.Package` alone, not on
the once or the cached toolchain, and they run no initialisation. -/
theorem C16_source_and_test_paths {W : Type} (E : Engines W) (p : Package) :
    ((Files.SourcePaths E p).Pairwise strLe ∧
      (Files.SourcePaths E p).Perm
        ((p.GoFiles ++ p.CgoFiles ++ p.CXXFiles ++ p.MFiles ++ p.SFiles ++ p.SwigFiles).map
          (E.filepathJoin p.Dir)) ∧
      (Files.SourcePaths E p).length =
        p.GoFiles.length + p.CgoFiles.length + p.CXXFiles.length + p.MFiles.length +
          p.SFiles.length + p.SwigFiles.length ∧
      (∀ x, x ∈ Files.SourcePaths E p ↔
        ∃ n ∈ p.GoFiles ++ p.CgoFiles ++ p.CXXFiles ++ p.MFiles ++ p.SFiles ++ p.SwigFiles,
          E.filepathJoin p.Dir n = x) ∧
      ((∀ a b, E.filepathJoin p.Dir a = E.filepathJoin p.Dir b → a = b) →
        ∀ t, (t ∈ p.TestGoFiles ∨ t ∈ p.XTestGoFiles) →
          E.filepathJoin p.Dir t ∈ Files.SourcePaths E p →
          t ∈ p.GoFiles ++ p.CgoFiles ++ p.CXXFiles ++ p.MFiles ++ p.SFiles ++ p.SwigFiles)) ∧
    ((Files.TestPaths E p).Pairwise strLe ∧
      (Files.TestPaths E p).Perm
        ((p.TestGoFiles ++ p.XTestGoFiles).map (E.filepathJoin p.Dir)) ∧
      (Files.TestPaths E p).length = p.TestGoFiles.length + p.XTestGoFiles.length ∧
      (∀ x, x ∈ Files.TestPaths E p ↔
        ∃ n ∈ p.TestGoFiles ++ p.XTestGoFiles, E.filepathJoin p.Dir n = x)) ∧
    (∀ q : Package, q.toBuildPackage = p.toBuildPackage →
      Files.SourcePaths E q = Files.SourcePaths E p ∧
        Files.TestPaths E q = Files.TestPaths E p) := by
  obtain ⟨s1, s2, s3, s4⟩ := sorted_paths (E.filepathJoin p.Dir) (sourceNames p)
  obtain ⟨t1, t2, t3, t4⟩ := sorted_paths (E.filepathJoin p.Dir) (testNames p)
  rw [← sourceNames_eq p, ← testNames_eq p]
  refine ⟨⟨s1, s2, ?_, s4, ?_⟩, ⟨t1, t2, ?_, t4⟩, ?_⟩
  · refine Eq.trans s3 ?_
    rw [sourceNames_eq]
    simp only [List.length_append]
  · intro hinj t _ ht
    obtain ⟨n, hn, he⟩ := (s4 _).1 ht
    rw [← hinj n t he]
    exact hn
  · refine Eq.trans t3 ?_
    rw [testNames_eq]
    simp only [List.length_append]
  · intro q hq
    unfold Files.SourcePaths Files.TestPaths sourceNames testNames
    rw [hq]
    exact ⟨rfl, rfl⟩

theorem C16_source_and_test_paths_witness :
    Files.SourcePaths Demo.engines Demo.fresh =
        [str "testdata/tpkg.go", str "testdata/tpkg_private.go"] ∧
      Files.TestPaths Demo.engines Demo.fresh =
        [str "testdata/tpkg_example_test.go", str "testdata/tpkg_test.go"] ∧
      (Files.SourcePaths Demo.engines Demo.fresh).length = 2 ∧
      Files.SourcePaths Demo.engines Demo.pkg = Files.SourcePaths Demo.engines Demo.fresh :=
  ⟨by decide, by decide,
    (C16_source_and_test_paths Demo.engines Demo.fresh).1.2.2.1,
    ((C16_source_and_test_paths Demo.engines Demo.fresh).2.2 Demo.pkg rfl).1⟩

/-! ## The call that runs the build -/

/-- After `p.init()` the package is initialised, also when this very call
runs the build. -/
theorem initialised_after_init {W : Type} (E : Engines W) (p : Package) (w : W)
    (tc : Toolchain) (h : InitialisedBy E p w tc) : Initialised (init E p w).pkg tc := by
  rcases h with h | ⟨hf, hb⟩
  · rw [init_of_once E p w h.1]
    exact h
  · rw [init_fresh E p w hf]
    rcases toToolchain_result E p.toBuildPackage (some typesInfo) w with
      ⟨e, he⟩ | ⟨tc', he, hc, hi⟩
    · rw [hb] at he
      cases he
    · rw [hb] at he
      cases he
      exact ⟨rfl, congrArg (fun r => some r.1) hb, hc.1, hc.2.1, hc.2.2.1, hc.2.2.2, hi⟩

theorem Demo.initialisedBy : InitialisedBy Demo.engines Demo.fresh 0 Demo.tc :=
  Or.inr ⟨rfl, rfl⟩

theorem docPkgOf_after_init {W : Type} (E : Engines W) (p : Package) (w : W)
    (tc : Toolchain) (dp : DocPackage) (h : InitialisedBy E p w tc) (hdp : tc.docPkg = some dp) :
    docPkgOf (init E p w).pkg = some dp :=
  docPkgOf_initialised _ tc dp (initialised_after_init E p w tc h) hdp

theorem files_names_val {W : Type} (E : Engines W) (p : Package) (w : W) :
    (Files.Names E p w).val =
      (docPkgOf (init E p w).pkg).map fun dp => dp.Filenames.map E.filepathBase := by
  unfold Files.Names docPkgOf
  dsimp only
  cases (init E p w).pkg.tc with
  | none => rfl
  | some tc =>
    dsimp only
    cases tc.docPkg <;> rfl

theorem files_paths_val {W : Type} (E : Engines W) (p : Package) (w : W) :
    (Files.Paths E p w).val = (docPkgOf (init E p w).pkg).map fun dp => dp.Filenames := by
  unfold Files.Paths docPkgOf
  dsimp only
  cases (init E p w).pkg.tc with
  | none => rfl
  | some tc =>
    dsimp only
    cases tc.docPkg <;> rfl

theorem init_init_pkg {W : Type} (E : Engines W) (p : Package) (w w' : W) :
    (init E (init E p w).pkg w').pkg = (init E p w).pkg := by
  rw [init_of_once E _ w' (init_sets_once E p w)]

/-- For a package that is initialised by the call or before it, with the
doc package `dp`: `Files.Paths()` returns the list
`dp.Filenames` and `Files.Names()` the base names of its members, in the
order of that list and without sorting it, on this call and on every later
one; so the two results have the same length and the name at every index
is the base name of the path at that index. `Paths()` is sorted exactly when
`dp.Filenames` is, and `Names()` is sorted when moreover `filepath.Base`
keeps the order of the members of that list. -/
theorem files_names_paths {W : Type} (E : Engines W) (p : Package) (w w' : W)
    (tc : Toolchain) (dp : DocPackage) (hready : InitialisedBy E p w tc)
    (hdp : tc.docPkg = some dp) :
    ∃ names paths, (Files.Names E p w).val = some names ∧
      (Files.Paths E p w).val = some paths ∧
      (Files.Names E (init E p w).pkg w').val = some names ∧
      (Files.Paths E (init E p w).pkg w').val = some paths ∧
      paths = dp.Filenames ∧ names = paths.map E.filepathBase ∧
      names.length = paths.length ∧
      (∀ i, names.get? i = (paths.get? i).map E.filepathBase) ∧
      (paths.Pairwise strLe ↔ dp.Filenames.Pairwise strLe) ∧
      (dp.Filenames.Pairwise strLe →
        (∀ x ∈ dp.Filenames, ∀ y ∈ dp.Filenames, strLe x y →
          strLe (E.filepathBase x) (E.filepathBase y)) →
        names.Pairwise strLe) := by
  have hd := docPkgOf_after_init E p w tc dp hready hdp
  refine ⟨dp.Filenames.map E.filepathBase, dp.Filenames, ?_, ?_, ?_, ?_, rfl, rfl, ?_, ?_,
    Iff.rfl, ?_⟩
  · rw [files_names_val, hd]
    rfl
  · rw [files_paths_val, hd]
    rfl
  · rw [files_names_val, init_init_pkg, hd]
    rfl
  · rw [files_paths_val, init_init_pkg, hd]
    rfl
  · rw [List.length_map]
  · intro i
    simp [List.get?_eq_getElem?]
  · intro hs hmono
    rw [List.pairwise_map]
    exact hs.imp_of_mem fun hx hy hxy => hmono _ hx _ hy hxy

/-! ## The method resolver on every call -/

/-- The value of `MethodSet(name)`, whatever the state of the package: the
body on the scope `p.tc.typesPkg.Scope()` read after `p.init()`, a fault
when there is none. -/
theorem methodSet_val {W : Type} (E : Engines W) (p : Package) (w : W) (name : GoString) :
    (Package.MethodSet E p w name).val =
      (scopeOf E (init E p w).pkg.tc).map fun scope => methodSetIn E scope name := by
  unfold Package.MethodSet
  dsimp only
  cases scopeOf E (init E p w).pkg.tc <;> rfl

/-- The scope read after `p.init()` is the scope of the types package of the
bundle, also when this very call runs the build. -/
theorem scopeOf_after_init {W : Type} (E : Engines W) (p : Package) (w : W)
    (tc : Toolchain) (tp : TypesPackage) (h : InitialisedBy E p w tc)
    (htp : tc.typesPkg = some tp) : scopeOf E (init E p w).pkg.tc = some tp.scope := by
  rw [(initialised_after_init E p w tc h).2.1]
  unfold scopeOf
  dsimp only
  rw [htp]

theorem methodSet_val_after_init {W : Type} (E : Engines W) (p : Package) (w : W)
    (tc : Toolchain) (tp : TypesPackage) (h : InitialisedBy E p w tc)
    (htp : tc.typesPkg = some tp) (name : GoString) :
    (Package.MethodSet E p w name).val = some (methodSetIn E tp.scope name) := by
  rw [methodSet_val, scopeOf_after_init E p w tc tp h htp]
  rfl

theorem methodSet_val_init {W : Type} (E : Engines W) (p : Package) (w w' : W)
    (name : GoString) :
    (Package.MethodSet E (init E p w).pkg w' name).val = (Package.MethodSet E p w name).val := by
  rw [methodSet_val, methodSet_val, init_init_pkg]

theorem functions_val_init {W : Type} (E : Engines W) (p : Package) (w w' : W) :
    (Package.Functions E (init E p w).pkg w').val = (Package.Functions E p w).val := by
  unfold Package.Functions
  dsimp only
  rw [init_init_pkg]
  cases scopeOf E (init E p w).pkg.tc <;> rfl

theorem methods_val_after_init {W : Type} (E : Engines W) (p : Package) (w : W)
    (tc : Toolchain) (tp : TypesPackage) (h : InitialisedBy E p w tc)
    (htp : tc.typesPkg = some tp) :
    (Package.Methods E p w).val =
      some (tp.scope.Names.foldl (methodsStep E tp.scope) GoMap.empty) := by
  unfold Package.Methods
  dsimp only
  rw [scopeOf_after_init E p w tc tp h htp]
  dsimp only
  rw [methods_fold_state E (init E p w).pkg (init E p w).world tc tp
    (initialised_after_init E p w tc h) htp]

/-- C2. On a package that is initialised by the call or before it (the
first call on a fresh package whose build succeeds is included)
`MethodSet(name)` returns without a fault; it succeeds exactly when `name`
is declared in the package scope, is exported and is test-like neither for
`Test` nor for `Example`; a name that is not declared gives the error
`named type was not found`, whatever its spelling; a declared name that is
not exported or is test-like gives `named type was not exported`; with an
error the method set is the zero value. -/
theorem C2_methodSet_errors {W : Type} (E : Engines W) (p : Package) (w : W)
    (tc : Toolchain) (tp : TypesPackage) (hready : InitialisedBy E p w tc)
    (htp : tc.typesPkg = some tp) (name : GoString) :
    ∃ ms err, (Package.MethodSet E p w name).val = some (ms, err) ∧
      (err = none ↔
        (∃ obj ∈ tp.scope.objs, obj.name = name) ∧ IsExported E.tables name = true ∧
          isTest E.tables name (str "Test") = false ∧
          isTest E.tables name (str "Example") = false) ∧
      ((∀ obj ∈ tp.scope.objs, obj.name ≠ name) →
        err = some (Error.errorf (str "named type was not found"))) ∧
      ((∃ obj ∈ tp.scope.objs, obj.name = name) →
        (IsExported E.tables name = false ∨ isTest E.tables name (str "Test") = true ∨
          isTest E.tables name (str "Example") = true) →
        err = some (Error.errorf (str "named type was not exported"))) ∧
      (err ≠ none → ms = MethodSet.zero) := by
  obtain ⟨ms, err, he, rest⟩ := methodSetIn_errors E tp.scope name
  refine ⟨ms, err, ?_, rest⟩
  rw [methodSet_val_after_init E p w tc tp hready htp, he]

theorem C2_methodSet_errors_witness :
    InitialisedBy Demo.engines Demo.fresh 0 Demo.tc ∧ Demo.fresh.once = false ∧
      Demo.tc.typesPkg = some Demo.typesPkg ∧
      (∃ ms err, (Package.MethodSet Demo.engines Demo.fresh 0 (str "privateStruct")).val =
          some (ms, err) ∧
        err = some (Error.errorf (str "named type was not exported")) ∧
        ms = MethodSet.zero) ∧
      ∃ ms err, (Package.MethodSet Demo.engines Demo.fresh 0 (str "nosuchname")).val =
          some (ms, err) ∧
        err = some (Error.errorf (str "named type was not found")) := by
  obtain ⟨ms, err, hv, _, _, h3, h4⟩ :=
    C2_methodSet_errors Demo.engines Demo.fresh 0 Demo.tc Demo.typesPkg Demo.initialisedBy rfl
      (str "privateStruct")
  obtain ⟨ms', err', hv', _, h2', _⟩ :=
    C2_methodSet_errors Demo.engines Demo.fresh 0 Demo.tc Demo.typesPkg Demo.initialisedBy rfl
      (str "nosuchname")
  have he := h3 ⟨Demo.privateStruct, by decide, rfl⟩ (Or.inl rfl)
  exact ⟨Demo.initialisedBy, rfl, rfl, ⟨ms, err, hv, he, h4 (by rw [he]; simp)⟩,
    ms', err', hv', h2' (by decide)⟩

/-- C3. Whenever `MethodSet(name)` succeeds, in whatever state the package
is when it is called (the first call on a fresh package included): `name` is
declared in the scope read after `p.init()`, which for a package initialised
by the call or before it is the scope of its types package; the keys of the
returned `Methods` are exactly the names of the function members of the
method set of the type and of the method set of the pointer to it, no name
being filtered out; `Len()` is the number of these names; the returned
`Name` is `name`; every key maps to a function of that very name. A type
whose value method set is `A` and whose pointer method set is `A, B` gives
the keys `A` and `B` and `Len() = 2`. -/
theorem C3_methodSet_union {W : Type} (E : Engines W) (p : Package) (w : W)
    (name : GoString) (ms : MethodSet)
    (hs : (Package.MethodSet E p w name).val = some (ms, none)) :
    ∃ scope obj, scopeOf E (init E p w).pkg.tc = some scope ∧
      (∀ tc tp, InitialisedBy E p w tc → tc.typesPkg = some tp → scope = tp.scope) ∧
      scope.Lookup name = some obj ∧ ms.Name = name ∧ ms.Obj = some obj ∧
      (∀ k, k ∈ ms.Methods.keys ↔
        k ∈ funcNames (E.NewMethodSet obj.typ) ∨
          k ∈ funcNames (E.NewMethodSet (GoType.pointer obj.typ))) ∧
      ms.Len = ((funcNames (E.NewMethodSet obj.typ)).toFinset ∪
        (funcNames (E.NewMethodSet (GoType.pointer obj.typ))).toFinset).card ∧
      (∀ k f, ms.Methods.get? k = some f → f.Name = k) ∧
      (∀ a b : Object, a.kind = ObjKind.Func → b.kind = ObjKind.Func → a.name ≠ b.name →
        E.NewMethodSet obj.typ = [⟨a⟩] →
        E.NewMethodSet (GoType.pointer obj.typ) = [⟨a⟩, ⟨b⟩] →
        (∀ k, k ∈ ms.Names ↔ k = a.name ∨ k = b.name) ∧ ms.Len = 2) := by
  rw [methodSet_val] at hs
  cases hsc : scopeOf E (init E p w).pkg.tc with
  | none =>
    rw [hsc] at hs
    cases hs
  | some scope =>
    rw [hsc] at hs
    obtain ⟨obj, rest⟩ := methodSetIn_union E scope name ms (Option.some.inj hs)
    refine ⟨scope, obj, rfl, ?_, rest⟩
    intro tc tp hready htp
    have := scopeOf_after_init E p w tc tp hready htp
    rw [hsc] at this
    exact Option.some.inj this

theorem C3_methodSet_union_witness :
    Demo.fresh.once = false ∧
      (Package.MethodSet Demo.engines Demo.fresh 0 (str "PublicStruct")).val =
        some ((methodSetIn Demo.engines Demo.scope (str "PublicStruct")).1, none) ∧
      (methodSetIn Demo.engines Demo.scope (str "PublicStruct")).1.Name = str "PublicStruct" ∧
      (methodSetIn Demo.engines Demo.scope (str "PublicStruct")).1.Len = 2 := by
  obtain ⟨scope, obj, _, hsc, hl, hn, _, _, _, _, hab⟩ :=
    C3_methodSet_union Demo.engines Demo.fresh 0 (str "PublicStruct")
      (methodSetIn Demo.engines Demo.scope (str "PublicStruct")).1 rfl
  have hscope : scope = Demo.scope := hsc Demo.tc Demo.typesPkg Demo.initialisedBy rfl
  subst hscope
  have ho : obj = Demo.publicStruct := (Option.some.inj hl).symm
  subst ho
  exact ⟨rfl, rfl, hn, (hab Demo.methodOne Demo.methodOneP rfl rfl (by decide) rfl rfl).2⟩

/-- C4. In `MethodSet(name)`, in whatever state the package is when it is
called (the first call on a fresh package included), with `scope` the scope
read after `p.init()`, for a name declared there that passes the filter: if
the pointer method set holds a function named `k` (its last such member
being `zp`), then, whether or not the value method set holds a function of
that name too, `MethodSet` succeeds without an error, exactly one key
equals `k`, and the function stored under `k` is the one of the pointer
method set. -/
theorem C4_pointer_overwrites {W : Type} (E : Engines W) (p : Package) (w : W)
    (scope : Scope) (hscope : scopeOf E (init E p w).pkg.tc = some scope)
    (name : GoString) (obj : Object) (hl : scope.Lookup name = some obj)
    (hpub : isPublicName E.tables name = true) (k : GoString) (zp : Selection)
    (hp : (E.NewMethodSet (GoType.pointer obj.typ)).reverse.find? (isFuncNamed k) = some zp) :
    ∃ ms, (Package.MethodSet E p w name).val = some (ms, none) ∧
      ms.Methods.keys.countP (fun x => decide (x = k)) = 1 ∧
      ms.Methods.get? k = some (NewFunction zp.obj) ∧
      zp ∈ E.NewMethodSet (GoType.pointer obj.typ) := by
  obtain ⟨ms, he, rest⟩ := methodSetIn_pointer E scope name obj hl hpub k zp hp
  refine ⟨ms, ?_, rest⟩
  rw [methodSet_val, hscope, ← he]
  rfl

theorem C4_pointer_overwrites_witness :
    Demo.fresh.once = false ∧
      scopeOf Demo.engines (init Demo.engines Demo.fresh 0).pkg.tc = some Demo.scope ∧
      (⟨Demo.dupValue⟩ : Selection) ∈ Demo.engines.NewMethodSet Demo.dupStruct.typ ∧
      ∃ ms, (Package.MethodSet Demo.engines Demo.fresh 0 (str "Dup")).val = some (ms, none) ∧
        ms.Methods.keys.countP (fun x => decide (x = str "M")) = 1 ∧
        ms.Methods.get? (str "M") = some (NewFunction Demo.dupPointer) := by
  obtain ⟨ms, h1, h2, h3, _⟩ :=
    C4_pointer_overwrites Demo.engines Demo.fresh 0 Demo.scope
      (scopeOf_after_init Demo.engines Demo.fresh 0 Demo.tc Demo.typesPkg Demo.initialisedBy rfl)
      (str "Dup") Demo.dupStruct rfl rfl (str "M") ⟨Demo.dupPointer⟩ rfl
  exact ⟨rfl,
    scopeOf_after_init Demo.engines Demo.fresh 0 Demo.tc Demo.typesPkg Demo.initialisedBy rfl,
    by decide, ms, h1, h2, h3⟩

/-- C6. On a package that is initialised by the call or before it (the
first call on a fresh package whose build succeeds is included)
`Functions()` returns without a fault, and its result lists, in the order of
the sorted names of the scope, exactly the objects of the package scope that
are functions, are exported and are test-like neither for `Test` nor for
`Example`. No function named `Test`, `TestFoo`, `Example` or `ExampleBar`
and no unexported function is in the result; a function named `Testicular`
is. -/
theorem C6_functions_filter {W : Type} (E : Engines W) (p : Package) (w : W)
    (tc : Toolchain) (tp : TypesPackage) (hready : InitialisedBy E p w tc)
    (htp : tc.typesPkg = some tp) :
    ∃ funcs, (Package.Functions E p w).val = some funcs ∧
      funcs = ((tp.scope.Names.filterMap tp.scope.Lookup).filter
        (keepFunc E.tables)).map NewFunction ∧
      (funcs.map Function.Name).Sublist tp.scope.Names ∧
      (∀ f, f ∈ funcs ↔ ∃ obj ∈ tp.scope.objs, obj.kind = ObjKind.Func ∧
        IsExported E.tables obj.name = true ∧ isTest E.tables obj.name (str "Test") = false ∧
        isTest E.tables obj.name (str "Example") = false ∧ f = NewFunction obj) ∧
      (∀ f ∈ funcs, f.Name ≠ str "Test" ∧ f.Name ≠ str "TestFoo" ∧ f.Name ≠ str "Example" ∧
        f.Name ≠ str "ExampleBar" ∧ IsExported E.tables f.Name = true) ∧
      (∀ obj ∈ tp.scope.objs, obj.kind = ObjKind.Func → obj.name = str "Testicular" →
        NewFunction obj ∈ funcs) := by
  obtain ⟨funcs, hv, rest⟩ := functions_of_initialised E (init E p w).pkg (init E p w).world
    tc tp (initialised_after_init E p w tc hready) htp
  refine ⟨funcs, ?_, rest⟩
  rw [← functions_val_init E p w (init E p w).world]
  exact hv

theorem C6_functions_filter_witness :
    InitialisedBy Demo.engines Demo.fresh 0 Demo.tc ∧ Demo.fresh.once = false ∧
      Demo.tc.typesPkg = some Demo.typesPkg ∧
      (Package.Functions Demo.engines Demo.fresh 0).val =
        some [NewFunction Demo.stringFunc, NewFunction Demo.testicular] := by
  obtain ⟨funcs, hv, he, _⟩ :=
    C6_functions_filter Demo.engines Demo.fresh 0 Demo.tc Demo.typesPkg Demo.initialisedBy rfl
  refine ⟨Demo.initialisedBy, rfl, rfl, ?_⟩
  rw [hv, he]
  rfl

/-- C7. On a package that is initialised by the call or before it (the
first call on a fresh package whose build succeeds is included) `Methods()`
returns without a fault, and the returned map holds `ms` under `name`
exactly when `name` is a name of the scope on which `MethodSet(name)`
succeeds with the result `ms` having at least one method. Hence every value
has the name of its key and `Len() > 0`, and no key is unexported or
test-like. -/
theorem C7_methods_keys {W : Type} (E : Engines W) (p : Package) (w : W)
    (tc : Toolchain) (tp : TypesPackage) (hready : InitialisedBy E p w tc)
    (htp : tc.typesPkg = some tp) :
    ∃ methods, (Package.Methods E p w).val = some methods ∧
      (∀ name ms, methods.get? name = some ms ↔
        name ∈ tp.scope.Names ∧ (Package.MethodSet E p w name).val = some (ms, none) ∧
          ms.Len > 0) ∧
      (∀ name, name ∈ methods.keys ↔
        name ∈ tp.scope.Names ∧
          ∃ ms, (Package.MethodSet E p w name).val = some (ms, none) ∧ ms.Len > 0) ∧
      (∀ name ms, methods.get? name = some ms →
        ms.Name = name ∧ ms.Len > 0 ∧ IsExported E.tables name = true ∧
          isTest E.tables name (str "Test") = false ∧
          isTest E.tables name (str "Example") = false) := by
  have hI := initialised_after_init E p w tc hready
  obtain ⟨methods, hv, h1, h2, h3⟩ :=
    methods_of_initialised E (init E p w).pkg (init E p w).world tc tp hI htp
  have hval : (Package.Methods E (init E p w).pkg (init E p w).world).val =
      (Package.Methods E p w).val := by
    rw [methods_val_after_init E p w tc tp hready htp,
      methods_val_after_init E (init E p w).pkg (init E p w).world tc tp (Or.inl hI) htp]
  simp only [methodSet_val_init] at h1 h2
  exact ⟨methods, hval ▸ hv, h1, h2, h3⟩

theorem C7_methods_keys_witness :
    InitialisedBy Demo.engines Demo.fresh 0 Demo.tc ∧ Demo.fresh.once = false ∧
      Demo.tc.typesPkg = some Demo.typesPkg ∧
      ∃ methods, (Package.Methods Demo.engines Demo.fresh 0).val = some methods ∧
        (methods.get? (str "PublicStruct")).isSome = true ∧
        methods.get? (str "PlainStruct") = none ∧
        methods.get? (str "privateStruct") = none := by
  obtain ⟨methods, hv, hget, _, _⟩ :=
    C7_methods_keys Demo.engines Demo.fresh 0 Demo.tc Demo.typesPkg Demo.initialisedBy rfl
  refine ⟨Demo.initialisedBy, rfl, rfl, methods, hv, ?_, ?_, ?_⟩
  · rw [(hget (str "PublicStruct")
      (methodSetIn Demo.engines Demo.scope (str "PublicStruct")).1).2 ⟨by decide, rfl, by decide⟩]
    rfl
  · cases hm : methods.get? (str "PlainStruct") with
    | none => rfl
    | some ms =>
      obtain ⟨_, h2, h3⟩ := (hget _ ms).1 hm
      have : ms = (methodSetIn Demo.engines Demo.scope (str "PlainStruct")).1 :=
        congrArg Prod.fst (Option.some.inj h2).symm
      rw [this] at h3
      exact absurd h3 (by decide)
  · cases hm : methods.get? (str "privateStruct") with
    | none => rfl
    | some ms =>
      obtain ⟨_, h2, _⟩ := (hget _ ms).1 hm
      have : (some (Error.errorf (str "named type was not exported")) : Option Error) = none :=
        congrArg Prod.snd (Option.some.inj h2)
      cases this

/-! ## The file names of a directory -/

theorem strLess_append_left (P a b : GoString) : strLess (P ++ a) (P ++ b) = strLess a b := by
  induction P with
  | nil => rfl
  | cons c P ih =>
    show strLess (c :: (P ++ a)) (c :: (P ++ b)) = _
    rw [strLess, if_neg (lt_irrefl c), if_neg (lt_irrefl c), ih]

theorem backtrackLoop_spec (dotdot : Nat) (r : List Nat) :
    ∀ c, dotdot ≤ r.length →
      dotdot ≤ (backtrackLoop dotdot c r).length ∧ backtrackLoop dotdot c r <:+ r := by
  induction r with
  | nil => intro c h; exact ⟨h, List.suffix_refl _⟩
  | cons d r ih =>
    intro c h
    rw [backtrackLoop]
    by_cases hc : dotdot < (d :: r).length ∧ c ≠ 47
    · rw [if_pos hc]
      have hr : dotdot ≤ r.length := by
        have := hc.1
        simp only [List.length_cons] at this
        omega
      exact ⟨(ih d hr).1, (ih d hr).2.trans (List.suffix_cons d r)⟩
    · rw [if_neg hc]
      exact ⟨h, List.suffix_refl _⟩

theorem backtrack_rooted (t : List Nat) (h : 1 < (47 :: t).length) :
    ∃ t', backtrack 1 (47 :: t) = 47 :: t' := by
  unfold backtrack
  cases hr : (47 :: t).reverse with
  | nil => simp at hr
  | cons c r =>
    dsimp only
    have hlen : (47 :: t).reverse.length = (c :: r).length := by rw [hr]
    have h1 : 1 ≤ r.length := by
      simp only [List.length_reverse, List.length_cons] at hlen h
      omega
    obtain ⟨hl, hs⟩ := backtrackLoop_spec 1 r c h1
    have hp : (backtrackLoop 1 c r).reverse <+: 47 :: t := by
      have h2 : (backtrackLoop 1 c r).reverse <+: r.reverse := List.reverse_prefix.2 hs
      have h3 : r.reverse <+: 47 :: t := by
        have : 47 :: t = r.reverse ++ [c] := by
          have := congrArg List.reverse hr
          simpa using this
        rw [this]
        exact List.prefix_append _ _
      exact h2.trans h3
    cases hb : (backtrackLoop 1 c r).reverse with
    | nil =>
      have := congrArg List.length hb
      simp only [List.length_reverse, List.length_nil] at this
      omega
    | cons x t' =>
      rw [hb] at hp
      obtain ⟨u, hu⟩ := hp
      have hx : x = 47 := by
        have := congrArg List.head? hu
        simpa using this
      exact ⟨t', by rw [hx]⟩

theorem cleanLoop_copy (rooted : Bool) (n : List Nat) :
    ∀ out dotdot, 47 ∉ n → cleanLoop rooted n true out dotdot = out ++ n := by
  induction n with
  | nil => intro out dotdot _; simp [cleanLoop]
  | cons c t ih =>
    intro out dotdot h
    have hc : c ≠ 47 := fun e => h (e ▸ List.mem_cons_self _ _)
    have ht : 47 ∉ t := fun e => h (List.mem_cons_of_mem _ e)
    rw [cleanLoop, if_neg hc, ih _ _ ht]
    simp

theorem cleanLoop_entry (rooted : Bool) (n : List Nat) (out : List Nat) (dotdot : Nat)
    (hlen : 3 ≤ n.length) (hn : 47 ∉ n) :
    cleanLoop rooted n false out dotdot = withSeparator rooted out ++ n := by
  match n, hlen, hn with
  | c :: d :: e :: t, _, hn =>
    have hc : c ≠ 47 := fun h => hn (h ▸ List.mem_cons_self _ _)
    have hd : d ≠ 47 := fun h => hn (h ▸ List.mem_cons_of_mem _ (List.mem_cons_self _ _))
    have he : e ≠ 47 := fun h =>
      hn (h ▸ List.mem_cons_of_mem _ (List.mem_cons_of_mem _ (List.mem_cons_self _ _)))
    have hrest : 47 ∉ d :: e :: t := fun h => hn (List.mem_cons_of_mem _ h)
    rw [cleanLoop, if_neg hc,
      if_neg (show ¬ (c = 46 ∧ (d :: e :: t = [] ∨ (d :: e :: t).head? = some 47)) from by
        rintro ⟨_, h | h⟩
        · cases h
        · exact hd (by simpa using h))]
    rw [if_neg (show ¬ (c = 46 ∧ d = 46 ∧ (e :: t = [] ∨ (e :: t).head? = some 47)) from by
        rintro ⟨_, _, h | h⟩
        · cases h
        · exact he (by simpa using h)),
      cleanLoop_copy rooted _ _ _ hrest]
    simp

theorem rootKept_append (rooted : Bool) (out : List Nat) (dotdot : Nat) (l : List Nat)
    (h : RootKept rooted out dotdot) : RootKept rooted (out ++ l) dotdot := by
  intro hr
  obtain ⟨hd, t, ht⟩ := h hr
  exact ⟨hd, t ++ l, by rw [ht]; rfl⟩

theorem rootKept_withSeparator (rooted : Bool) (out : List Nat) (dotdot : Nat)
    (h : RootKept rooted out dotdot) : RootKept rooted (withSeparator rooted out) dotdot := by
  unfold withSeparator
  split
  · exact rootKept_append rooted out dotdot _ h
  · exact h

theorem head_append_separator (t n : List Nat) :
    (t ++ 47 :: n = [] ∨ (t ++ 47 :: n).head? = some 47) ↔ (t = [] ∨ t.head? = some 47) := by
  cases t <;> simp

theorem cleanLoop_separator (rooted : Bool) (t : List Nat) (copying : Bool) (out : List Nat)
    (dotdot : Nat) :
    cleanLoop rooted (47 :: t) copying out dotdot = cleanLoop rooted t false out dotdot := by
  cases copying <;> cases t <;> simp [cleanLoop]

theorem cleanLoop_dot (rooted : Bool) (c : Nat) (t : List Nat) (out : List Nat) (dotdot : Nat)
    (hc : c ≠ 47) (h : c = 46 ∧ (t = [] ∨ t.head? = some 47)) :
    cleanLoop rooted (c :: t) false out dotdot = cleanLoop rooted t false out dotdot := by
  obtain ⟨rfl, h⟩ := h
  cases t with
  | nil => simp [cleanLoop]
  | cons d t' =>
    have hd : d = 47 := by simpa using h
    subst hd
    simp [cleanLoop]

/-- The bytes of a directory followed by a separator are read by `cleanLoop`
in the same way whatever comes after them. -/
theorem cleanLoop_dir (rooted : Bool) : ∀ (k : Nat) (dir : List Nat), dir.length ≤ k →
    ∀ (copying : Bool) (out : List Nat) (dotdot : Nat), RootKept rooted out dotdot →
      ∃ out' dotdot', RootKept rooted out' dotdot' ∧
        ∀ n, cleanLoop rooted (dir ++ 47 :: n) copying out dotdot =
          cleanLoop rooted n false out' dotdot' := by
  have base : ∀ (copying : Bool) (out : List Nat) (dotdot : Nat), RootKept rooted out dotdot →
      ∃ out' dotdot', RootKept rooted out' dotdot' ∧
        ∀ n, cleanLoop rooted ([] ++ 47 :: n) copying out dotdot =
          cleanLoop rooted n false out' dotdot' := by
    intro copying out dotdot hinv
    refine ⟨out, dotdot, hinv, fun n => ?_⟩
    rw [List.nil_append, cleanLoop_separator]
  intro k
  induction k with
  | zero =>
    intro dir hlen
    have : dir = [] := List.length_eq_zero.1 (Nat.le_zero.1 hlen)
    subst this
    exact base
  | succ k ih =>
    intro dir hlen copying out dotdot hinv
    cases dir with
    | nil => exact base copying out dotdot hinv
    | cons c t =>
      have ht : t.length ≤ k := by
        simp only [List.length_cons] at hlen
        omega
      cases copying with
      | true =>
        by_cases hc : c = 47
        · obtain ⟨o, d, hi, h⟩ := ih t ht false out dotdot hinv
          exact ⟨o, d, hi, fun n => by rw [List.cons_append, cleanLoop, if_pos hc, h n]⟩
        · obtain ⟨o, d, hi, h⟩ := ih t ht true (out ++ [c]) dotdot
            (rootKept_append rooted out dotdot _ hinv)
          exact ⟨o, d, hi, fun n => by rw [List.cons_append, cleanLoop, if_neg hc, h n]⟩
      | false =>
        by_cases hc : c = 47
        · obtain ⟨o, d, hi, h⟩ := ih t ht false out dotdot hinv
          exact ⟨o, d, hi, fun n => by rw [List.cons_append, hc, cleanLoop_separator, h n]⟩
        · by_cases h2 : c = 46 ∧ (t = [] ∨ t.head? = some 47)
          · obtain ⟨o, d, hi, h⟩ := ih t ht false out dotdot hinv
            refine ⟨o, d, hi, fun n => ?_⟩
            rw [List.cons_append, cleanLoop_dot rooted c _ out dotdot hc
              ⟨h2.1, (head_append_separator t n).2 h2.2⟩, h n]
          · cases t with
            | nil =>
              have hc2 : c ≠ 46 := fun e => h2 ⟨e, Or.inl rfl⟩
              refine ⟨withSeparator rooted out ++ [c], dotdot,
                rootKept_append rooted _ dotdot _ (rootKept_withSeparator rooted out dotdot hinv),
                fun n => ?_⟩
              rw [List.cons_append, List.nil_append, cleanLoop, if_neg hc,
                if_neg (show ¬ (c = 46 ∧ (47 :: n = [] ∨ (47 :: n).head? = some 47)) from
                  fun h => hc2 h.1),
                if_neg (show ¬ (c = 46 ∧ 47 = 46 ∧ (n = [] ∨ n.head? = some 47)) from
                  fun h => hc2 h.1),
                cleanLoop, if_pos rfl]
            | cons d t' =>
              have ht' : t'.length ≤ k := by
                simp only [List.length_cons] at ht
                omega
              have hn2 : ∀ n, ¬ (c = 46 ∧ (d :: (t' ++ 47 :: n) = [] ∨
                  (d :: (t' ++ 47 :: n)).head? = some 47)) := by
                rintro n ⟨h46, h | h⟩
                · cases h
                · exact h2 ⟨h46, Or.inr (by simpa using h)⟩
              by_cases h3 : c = 46 ∧ d = 46 ∧ (t' = [] ∨ t'.head? = some 47)
              · have hp3 : ∀ n, c = 46 ∧ d = 46 ∧
                    (t' ++ 47 :: n = [] ∨ (t' ++ 47 :: n).head? = some 47) :=
                  fun n => ⟨h3.1, h3.2.1, (head_append_separator t' n).2 h3.2.2⟩
                by_cases hb : dotdot < out.length
                · have hinv' : RootKept rooted (backtrack dotdot out) dotdot := by
                    intro hr
                    obtain ⟨hd, t0, ht0⟩ := hinv hr
                    subst hd
                    subst ht0
                    exact ⟨rfl, backtrack_rooted t0 hb⟩
                  obtain ⟨o, d', hi, h⟩ := ih t' ht' false (backtrack dotdot out) dotdot hinv'
                  refine ⟨o, d', hi, fun n => ?_⟩
                  rw [List.cons_append, List.cons_append, cleanLoop, if_neg hc, if_neg (hn2 n),
                    if_pos (hp3 n), if_pos hb, h n]
                · by_cases hr : rooted = true
                  · obtain ⟨o, d', hi, h⟩ := ih t' ht' false out dotdot hinv
                    refine ⟨o, d', hi, fun n => ?_⟩
                    rw [List.cons_append, List.cons_append, cleanLoop, if_neg hc, if_neg (hn2 n),
                      if_pos (hp3 n), if_neg hb, if_pos hr, h n]
                  · obtain ⟨o, d', hi, h⟩ := ih t' ht' false
                      ((if 0 < out.length then out ++ [47] else out) ++ [46, 46])
                      ((if 0 < out.length then out ++ [47] else out) ++ [46, 46]).length
                      (fun h => absurd h hr)
                    refine ⟨o, d', hi, fun n => ?_⟩
                    rw [List.cons_append, List.cons_append, cleanLoop, if_neg hc, if_neg (hn2 n),
                      if_pos (hp3 n), if_neg hb, if_neg hr, h n]
              · have hn3 : ∀ n, ¬ (c = 46 ∧ d = 46 ∧
                    (t' ++ 47 :: n = [] ∨ (t' ++ 47 :: n).head? = some 47)) :=
                  fun n h => h3 ⟨h.1, h.2.1, (head_append_separator t' n).1 h.2.2⟩
                obtain ⟨o, d', hi, h⟩ := ih (d :: t') ht true (withSeparator rooted out ++ [c])
                  dotdot
                  (rootKept_append rooted _ dotdot _ (rootKept_withSeparator rooted out dotdot hinv))
                refine ⟨o, d', hi, fun n => ?_⟩
                rw [List.cons_append, List.cons_append, cleanLoop, if_neg hc, if_neg (hn2 n),
                  if_neg (hn3 n), ← List.cons_append, h n]

/-- A name of a directory entry that `ParseDir` reads: it holds no separator
and is at least three bytes long. Joined to a directory it is the last
element of the path: one beginning, which depends on the directory alone and
is empty or ends with the separator, comes before every such name. -/
theorem join_entry (dir : GoString) :
    ∃ P : GoString, (P = [] ∨ ∃ Q, P = Q ++ [47]) ∧
      ∀ n : GoString, 3 ≤ n.length → 47 ∉ n → Join dir n = P ++ n := by
  have hshape : ∀ (rooted : Bool) (out : List Nat) (dotdot : Nat), RootKept rooted out dotdot →
      (withSeparator rooted out = [] ∨ ∃ Q, withSeparator rooted out = Q ++ [47]) := by
    intro rooted out dotdot hinv
    unfold withSeparator
    by_cases hcond : (rooted = true ∧ out.length ≠ 1) ∨ (rooted = false ∧ out.length ≠ 0)
    · rw [if_pos hcond]
      exact Or.inr ⟨out, rfl⟩
    · rw [if_neg hcond]
      cases rooted with
      | true =>
        obtain ⟨_, t, ht⟩ := hinv rfl
        have hl : out.length = 1 := by
          by_contra hne
          exact hcond (Or.inl ⟨rfl, hne⟩)
        subst ht
        have : t = [] := by
          cases t with
          | nil => rfl
          | cons _ _ => simp at hl
        subst this
        exact Or.inr ⟨[], rfl⟩
      | false =>
        have hl : out.length = 0 := by
          by_contra hne
          exact hcond (Or.inr ⟨rfl, hne⟩)
        exact Or.inl (List.length_eq_zero.1 hl)
  have hne : ∀ (P n : GoString), 3 ≤ n.length → P ++ n ≠ [] := by
    intro P n hn h
    have := congrArg List.length h
    simp only [List.length_append, List.length_nil] at this
    omega
  cases dir with
  | nil =>
    refine ⟨[], Or.inl rfl, fun n hlen hn => ?_⟩
    cases n with
    | nil => simp at hlen
    | cons c t =>
      have hc : c ≠ 47 := fun e => hn (e ▸ List.mem_cons_self _ _)
      have hl := cleanLoop_entry false (c :: t) [] 0 hlen hn
      unfold Join Clean
      rw [if_neg (by simp), if_pos (by simp)]
      dsimp only
      rw [if_neg hc, hl]
      simp [withSeparator]
  | cons c t =>
    by_cases hc : c = 47
    · obtain ⟨o, d, hi, h⟩ := cleanLoop_dir true t.length t (le_refl _) false [47] 1
        (fun _ => ⟨rfl, [], rfl⟩)
      refine ⟨withSeparator true o, hshape true o d hi, fun n hlen hn => ?_⟩
      unfold Join Clean
      rw [if_pos (by simp), List.cons_append]
      dsimp only
      rw [if_pos hc, h n, cleanLoop_entry true n o d hlen hn, if_neg (hne _ n hlen)]
    · obtain ⟨o, d, hi, h⟩ := cleanLoop_dir false (c :: t).length (c :: t) (le_refl _) false [] 0
        (fun h => by cases h)
      refine ⟨withSeparator false o, hshape false o d hi, fun n hlen hn => ?_⟩
      unfold Join Clean
      rw [if_pos (by simp), List.cons_append]
      dsimp only
      rw [if_neg hc, ← List.cons_append, h n, cleanLoop_entry false n o d hlen hn,
        if_neg (hne _ n hlen)]

theorem base_entry (P n : GoString) (hP : P = [] ∨ ∃ Q, P = Q ++ [47]) (hlen : 3 ≤ n.length)
    (hn : 47 ∉ n) : Base (P ++ n) = n := by
  have hne : P ++ n ≠ [] := by
    intro h
    have := congrArg List.length h
    simp only [List.length_append, List.length_nil] at this
    omega
  have hrev : ∀ b ∈ n.reverse, b ≠ 47 := fun b hb e => hn (e ▸ List.mem_reverse.1 hb)
  have hnr : n.reverse ≠ [] := by
    intro h
    have := congrArg List.length h
    simp only [List.length_reverse, List.length_nil] at this
    omega
  unfold Base
  rw [if_neg hne]
  dsimp only
  have hdrop : (P ++ n).reverse.dropWhile (fun b => decide (b = 47)) = n.reverse ++ P.reverse := by
    rw [List.reverse_append]
    cases hr : n.reverse with
    | nil => exact absurd hr hnr
    | cons x r =>
      have hx : x ≠ 47 := hrev x (hr ▸ List.mem_cons_self _ _)
      rw [List.cons_append, List.dropWhile_cons_of_neg (by simpa using hx)]
  have htake : (n.reverse ++ P.reverse).takeWhile (fun b => decide (b ≠ 47)) = n.reverse := by
    rw [List.takeWhile_append_of_pos (fun b hb => by simpa using hrev b hb)]
    rcases hP with rfl | ⟨Q, rfl⟩
    · simp
    · simp
  rw [hdrop, htake, List.reverse_reverse, if_neg]
  intro h
  rw [h] at hlen
  simp at hlen

theorem GoMap.mem_of_get? {β : Type} (m : GoMap β) (k : GoString) (v : β)
    (h : m.get? k = some v) : (k, v) ∈ m.entries := by
  unfold GoMap.get? at h
  cases hf : m.entries.find? (fun e => decide (e.1 = k)) with
  | none =>
    rw [hf] at h
    cases h
  | some e =>
    rw [hf] at h
    have hv : e.2 = v := Option.some.inj h
    have hk : e.1 = k := by simpa using List.find?_some hf
    have hm := List.mem_of_find?_eq_some hf
    rw [← hk, ← hv]
    exact hm

theorem isGoEntry_spec (n : GoString) (h : isGoEntry n = true) : 3 ≤ n.length ∧ 47 ∉ n := by
  unfold isGoEntry HasSuffix at h
  simp only [Bool.and_eq_true, decide_eq_true_eq] at h
  exact ⟨h.2.1, h.1⟩

/-- Every file name that `ParseDir` records is the directory joined with the
name of an entry. -/
theorem dirFiles_keys (path : GoString) (files : GoMap AstFile) (k : GoString)
    (h : k ∈ (dirFiles path files).keys) : ∃ n, isGoEntry n = true ∧ k = Join path n := by
  unfold dirFiles at h
  rcases (mem_keys_foldl_set (fun e : GoString × AstFile => Join path e.1) (fun e => e.2)
    _ GoMap.empty k).1 h with h | ⟨e, he, hk⟩
  · simp [GoMap.keys, GoMap.empty] at h
  · exact ⟨e.1, by simpa using (List.mem_filter.1 he).2, hk.symm⟩

theorem dirPackages_get (path : GoString) (pkgs : GoMap AstPackage) (name : GoString)
    (a : AstPackage) (h : (dirPackages path pkgs).get? name = some a) :
    ∃ raw, a = dirPackage path raw := by
  have he : (dirPackages path pkgs).entries =
      pkgs.entries.map fun e => (e.1, dirPackage path e.2) := by
    have := entries_foldl_set (fun e : GoString × AstPackage => e.1)
      (fun e => dirPackage path e.2) pkgs.entries GoMap.empty pkgs.nodup
      (fun _ _ h => by simp [GoMap.keys, GoMap.empty] at h)
    simpa [GoMap.empty] using this
  have hm := GoMap.mem_of_get? _ _ _ h
  rw [he] at hm
  obtain ⟨e, _, hx⟩ := List.mem_map.1 hm
  exact ⟨e.2, (congrArg Prod.snd hx).symm⟩

theorem goLibraries_parse {W : Type} (E : Engines W) (w : W) (fs : FileSet) (path : GoString)
    (pkgs : GoMap AstPackage)
    (h : ((goLibraries E).ParseDir w fs path).1 = Except.ok pkgs) :
    ∃ raw, pkgs = dirPackages path raw := by
  unfold goLibraries at h
  dsimp only at h
  rcases hr : E.ParseDir w fs path with ⟨e | raw, f, w1⟩
  · rw [hr] at h
    cases h
  · rw [hr] at h
    exact ⟨raw, (Except.ok.inj h).symm⟩

/-- The file names of the doc package of a successful build: the sorted
file names of a package that `ParseDir` has read in the directory. -/
theorem built_filenames {W : Type} (E : Engines W) (b : BuildPackage) (ti : Option TypesInfo)
    (w : W) (tc : Toolchain) (h : (toToolchain (goLibraries E) b ti w).1 = (tc, none)) :
    ∃ dp files, tc.docPkg = some dp ∧
      dp.Filenames = sortStrings (dirFiles b.Dir files).keys := by
  rcases toToolchain_cases (goLibraries E) b ti w with ⟨_, _, he⟩ | ⟨_, _, _, _, he⟩ |
    ⟨_, _, _, _, _, he⟩ | ⟨_, _, _, _, _, _, _, _, _, _, he⟩ |
    ⟨pkgs, docPkgs, astPkg, docAstPkg, typesPkg, facts, _, h2, _, hd, _, he⟩
  · rw [he] at h
    cases h
  · rw [he] at h
    cases h
  · rw [he] at h
    cases h
  · rw [he] at h
    cases h
  · rw [he] at h
    have htc := (Prod.mk.inj h).1
    obtain ⟨raw, hraw⟩ := goLibraries_parse E _ _ _ docPkgs h2
    rw [hraw] at hd
    obtain ⟨rawPkg, hp⟩ := dirPackages_get b.Dir raw b.Name docAstPkg hd
    refine ⟨(goLibraries E).docNew docAstPkg b.Dir, rawPkg.Files, ?_, ?_⟩
    · rw [← htc]
    · rw [hp]
      rfl

/-- The file names that `ParseDir` records for a directory, once sorted, are
sorted, and so are their base names: they differ by the name of the entry
alone. -/
theorem dir_names_sorted (path : GoString) (files : GoMap AstFile) :
    (sortStrings (dirFiles path files).keys).Sorted strLe ∧
      ((sortStrings (dirFiles path files).keys).map Base).Sorted strLe := by
  obtain ⟨P, hP, hj⟩ := join_entry path
  have hs := sortStrings_sorted (dirFiles path files).keys
  refine ⟨hs, ?_⟩
  unfold List.Sorted at hs ⊢
  rw [List.pairwise_map]
  refine List.Pairwise.imp_of_mem ?_ hs
  intro x y hx hy hxy
  obtain ⟨n1, e1, rfl⟩ := dirFiles_keys path files x ((mem_sortStrings _ _).1 hx)
  obtain ⟨n2, e2, rfl⟩ := dirFiles_keys path files y ((mem_sortStrings _ _).1 hy)
  obtain ⟨l1, m1⟩ := isGoEntry_spec n1 e1
  obtain ⟨l2, m2⟩ := isGoEntry_spec n2 e2
  rw [hj n1 l1 m1, hj n2 l2 m2] at hxy ⊢
  rw [base_entry P n1 hP l1 m1, base_entry P n2 hP l2 m2]
  unfold strLe at hxy ⊢
  rw [strLess_append_left] at hxy
  exact hxy

theorem initialisedBy_of_builtBy {W : Type} (E : Engines W) (p : Package) (w : W)
    (tc : Toolchain) (h : BuiltBy E p w tc) : InitialisedBy E p w tc := by
  rcases h with ⟨ho, ht, b, w0, hb⟩ | h
  · rcases toToolchain_result E b (some typesInfo) w0 with ⟨e, he⟩ | ⟨tc', he, hc, hi⟩
    · rw [hb] at he
      cases he
    · rw [hb] at he
      cases he
      exact Or.inl ⟨ho, ht, hc.1, hc.2.1, hc.2.2.1, hc.2.2.2, hi⟩
  · exact Or.inr h

/-- C17. For every package that the code leaves initialised (its bundle is
the one a successful build has returned, before the call or by the call
itself, the first call on a fresh package included), with the file names of
`go/parser`, `go/doc` and `path/filepath`: `Files.Names()` and
`Files.Paths()` return without a fault, on this call and on every later one
the same slices; `Names()` is sorted in ascending order and `Paths()` is
sorted in ascending order; the two have the same length, and the name at
every index is the base name of the path at that index. -/
theorem C17_names_paths_sorted {W : Type} (E : Engines W) (p : Package) (w w' : W)
    (tc : Toolchain) (hready : BuiltBy (goLibraries E) p w tc) :
    ∃ names paths,
      (Files.Names (goLibraries E) p w).val = some names ∧
      (Files.Paths (goLibraries E) p w).val = some paths ∧
      (Files.Names (goLibraries E) (init (goLibraries E) p w).pkg w').val = some names ∧
      (Files.Paths (goLibraries E) (init (goLibraries E) p w).pkg w').val = some paths ∧
      names.Sorted strLe ∧ paths.Sorted strLe ∧
      names.length = paths.length ∧
      (∀ i, names.get? i = (paths.get? i).map Base) := by
  have hI := initialisedBy_of_builtBy (goLibraries E) p w tc hready
  obtain ⟨b, w0, hb⟩ : ∃ (b : BuildPackage) (w0 : W),
      (toToolchain (goLibraries E) b (some typesInfo) w0).1 = (tc, none) := by
    rcases hready with ⟨_, _, h⟩ | ⟨_, h⟩
    · exact h
    · exact ⟨_, _, h⟩
  obtain ⟨dp, files, hdp, hf⟩ := built_filenames E b _ w0 tc hb
  obtain ⟨names, paths, h1, h2, h3, h4, h5, h6, h7, h8, _⟩ :=
    files_names_paths (goLibraries E) p w w' tc dp hI hdp
  refine ⟨names, paths, h1, h2, h3, h4, ?_, ?_, h7, h8⟩
  · rw [h6, h5, hf]
    exact (dir_names_sorted b.Dir files).2
  · rw [h5, hf]
    exact (dir_names_sorted b.Dir files).1

theorem C17_names_paths_sorted_witness :
    Demo.fresh.once = false ∧
      (Files.Paths (goLibraries Demo.dirEngines) Demo.fresh 0).val =
        some [str "testdata/tpkg.go", str "testdata/tpkg_private.go",
          str "testdata/tpkg_test.go"] ∧
      (Files.Names (goLibraries Demo.dirEngines) Demo.fresh 0).val =
        some [str "tpkg.go", str "tpkg_private.go", str "tpkg_test.go"] ∧
      [str "testdata/tpkg.go", str "testdata/tpkg_private.go",
        str "testdata/tpkg_test.go"].Sorted strLe ∧
      [str "tpkg.go", str "tpkg_private.go", str "tpkg_test.go"].Sorted strLe := by
  obtain ⟨names, paths, h1, h2, _, _, h5, h6, _, _⟩ :=
    C17_names_paths_sorted Demo.dirEngines Demo.fresh 0 1
      (toToolchain (goLibraries Demo.dirEngines) Demo.fresh.toBuildPackage (some typesInfo) 0).1.1
      (Or.inr ⟨rfl, rfl⟩)
  have e1 : (Files.Names (goLibraries Demo.dirEngines) Demo.fresh 0).val =
      some [str "tpkg.go", str "tpkg_private.go", str "tpkg_test.go"] := by decide
  have e2 : (Files.Paths (goLibraries Demo.dirEngines) Demo.fresh 0).val =
      some [str "testdata/tpkg.go", str "testdata/tpkg_private.go",
        str "testdata/tpkg_test.go"] := by decide
  rw [e1] at h1
  rw [e2] at h2
  rw [← Option.some.inj h1] at h5
  rw [← Option.some.inj h2] at h6
  exact ⟨rfl, e2, e1, h6, h5⟩

end Srcutil
